import Mathlib

/-!
Verification of the request/response translation and streaming
normalization layer of an Ollama provider library.

The development shallowly embeds the following source components:
* the NDJSON stream response handler (`createNdjsonStreamResponseHandler`),
* the wire response schema (`baseOllamaResponseSchema`) as a pair of types:
  a raw shape (fields optional, as JavaScript sees unvalidated data) and a
  validated shape (fields required exactly as the zod schema demands),
* the finish-reason mapper (`mapOllamaFinishReason`),
* the message converter (`convertToOllamaChatMessages`),
* the reasoning-model override pass of the chat model `getArgs`,
* the responses-endpoint `doGenerate` decode and `doStream` tool-call loop,
* the `OllamaStreamProcessor` streaming state machine and the chat model
  `doStream` transform, both as explicit folds over chunk lists.

Byte streams are modelled as `List Char`; `JSON.parse` composed with schema
validation is an abstract parameter (`parse`) wherever the source calls it,
since the properties proved here hold for every parse function.
-/

namespace OllamaSpec

/-- Whitespace test used to model the JavaScript `String.prototype.trim`
(restricted to the ASCII whitespace that can occur in NDJSON payloads). -/
def isJsWhitespace (c : Char) : Bool :=
  c == ' ' || c == '\t' || c == '\n' || c == '\r'

/-- Model of the JavaScript `trim()`: drop whitespace from both ends. -/
def jsTrim (l : List Char) : List Char :=
  ((l.dropWhile isJsWhitespace).reverse.dropWhile isJsWhitespace).reverse

/-- Model of `String.prototype.startsWith`, list-based so that concrete
instances reduce in the kernel. -/
def strStartsWith (s p : String) : Bool :=
  p.toList.isPrefixOf s.toList

/-- Model of `text.split('\n')` with the trailing (newline-free) segment
separated out: the first component is the list of completed lines, the
second is the remainder after the last newline.  This matches the NDJSON
handler, which does `lines = buffer.split('\n'); buffer = lines.pop()`. -/
def splitNlRem : List Char → List (List Char) × List Char
  | [] => ([], [])
  | c :: cs =>
    let p := splitNlRem cs
    if c = '\n' then ([] :: p.1, p.2)
    else
      match p.1 with
      | [] => ([], c :: p.2)
      | l :: ls => ((c :: l) :: ls, p.2)

/-- All segments of `text.split('\n')`, completed lines plus remainder.
Used by the recovery paths that process every segment of a chunk. -/
def splitNlAll (l : List Char) : List (List Char) :=
  (splitNlRem l).1 ++ [(splitNlRem l).2]

theorem splitNlRem_append (a b : List Char) :
    splitNlRem (a ++ b) =
      ((splitNlRem a).1 ++ (splitNlRem ((splitNlRem a).2 ++ b)).1,
        (splitNlRem ((splitNlRem a).2 ++ b)).2) := by
  induction a with
  | nil => simp [splitNlRem]
  | cons c cs ih =>
    by_cases hc : c = '\n'
    · subst hc
      simp [splitNlRem, ih]
    · simp only [List.cons_append, splitNlRem, if_neg hc, List.append_eq]
      rcases hcs : (splitNlRem cs).1 with _ | ⟨l, ls⟩
      · rw [ih, hcs]
        simp only [List.nil_append]
        rcases hrb : (splitNlRem ((splitNlRem cs).2 ++ b)).1 with _ | ⟨l', ls'⟩ <;>
          simp [splitNlRem, if_neg hc, hrb]
      · rw [ih, hcs]
        simp

/-- The NDJSON handler body for one delivered chunk: append the chunk to the
buffered residue, split on newlines, keep the trailing segment as the new
buffer, and parse every completed line whose trim is non-empty; lines whose
parse fails are skipped.  `parse` stands for `JSON.parse` followed by
`schema.parse`, with exceptions mapped to `none`. -/
def ndjsonStep {α : Type} (parse : List Char → Option α)
    (buffer chunk : List Char) : List Char × List α :=
  let p := splitNlRem (buffer ++ chunk)
  (p.2, p.1.filterMap fun line =>
    let t := jsTrim line
    if t = [] then none else parse t)

/-- The NDJSON handler run over a list of delivered chunks, starting from a
given buffered residue; at end of stream the residue is trimmed and parsed
(failures ignored), per the `done` branch of the source. -/
def ndjsonRunFrom {α : Type} (parse : List Char → Option α) :
    List Char → List (List Char) → List α
  | buffer, [] =>
    let t := jsTrim buffer
    if t = [] then [] else (parse t).toList
  | buffer, c :: cs =>
    let s := ndjsonStep parse buffer c
    s.2 ++ ndjsonRunFrom parse s.1 cs

/-- The complete NDJSON decode of a delivered chunk sequence
(`createNdjsonStreamResponseHandler` with an empty initial buffer). -/
def ndjsonRun {α : Type} (parse : List Char → Option α)
    (chunks : List (List Char)) : List α :=
  ndjsonRunFrom parse [] chunks

theorem ndjsonRunFrom_merge {α : Type} (parse : List Char → Option α)
    (buffer c₁ c₂ : List Char) (cs : List (List Char)) :
    ndjsonRunFrom parse buffer (c₁ :: c₂ :: cs) =
      ndjsonRunFrom parse buffer ((c₁ ++ c₂) :: cs) := by
  simp only [ndjsonRunFrom, ndjsonStep, ← List.append_assoc]
  rw [splitNlRem_append (buffer ++ c₁) c₂]
  simp [List.filterMap_append, List.append_assoc]

/-! ## Wire response data model

Raw shapes carry every field as an `Option`, the way dynamically typed
JavaScript sees an unvalidated `JSON.parse` result shaped like a response.
Validated shapes have exactly the fields `baseOllamaResponseSchema`
requires: `model`, `created_at`, `done`, `message.content`, `message.role`
required; `thinking`, `tool_calls`, `done_reason` and counters optional;
every `tool_calls` entry requires `function.name` and `function.arguments`.
Argument objects (`z.record(z.any())`) are modelled as association lists of
string keys and opaque string payloads. -/

/-- Raw view of one entry of `message.tool_calls[].function`. -/
structure OllamaToolCallFunctionRaw where
  name : Option String := none
  arguments : Option (List (String × String)) := none
deriving DecidableEq, Repr

/-- Raw view of one entry of `message.tool_calls`. -/
structure OllamaToolCallRaw where
  function : Option OllamaToolCallFunctionRaw := none
  id : Option String := none
deriving DecidableEq, Repr

/-- Raw view of `message`. -/
structure OllamaMessageRaw where
  content : Option String := none
  role : Option String := none
  thinking : Option String := none
  tool_calls : Option (List OllamaToolCallRaw) := none
deriving DecidableEq, Repr

/-- Raw view of a wire response object. -/
structure OllamaResponseRaw where
  model : Option String := none
  created_at : Option String := none
  done : Option Bool := none
  message : Option OllamaMessageRaw := none
  done_reason : Option String := none
  eval_count : Option Nat := none
  eval_duration : Option Nat := none
  load_duration : Option Nat := none
  prompt_eval_count : Option Nat := none
  prompt_eval_duration : Option Nat := none
  total_duration : Option Nat := none
deriving DecidableEq, Repr

/-- Schema-validated `tool_calls[].function`: name and arguments required. -/
structure OllamaToolCallFunction where
  name : String
  arguments : List (String × String) := []
deriving DecidableEq, Repr

/-- Schema-validated `tool_calls` entry: `id` stays optional. -/
structure OllamaToolCall where
  function : OllamaToolCallFunction
  id : Option String := none
deriving DecidableEq, Repr

/-- Schema-validated `message`: `content` and `role` are required strings. -/
structure OllamaMessage where
  content : String := ""
  role : String := "assistant"
  thinking : Option String := none
  tool_calls : Option (List OllamaToolCall) := none
deriving DecidableEq, Repr

/-- Schema-validated wire response (`z.infer<typeof baseOllamaResponseSchema>`). -/
structure OllamaResponse where
  model : String := ""
  created_at : String := ""
  done : Bool := false
  message : OllamaMessage := {}
  done_reason : Option String := none
  eval_count : Option Nat := none
  eval_duration : Option Nat := none
  load_duration : Option Nat := none
  prompt_eval_count : Option Nat := none
  prompt_eval_duration : Option Nat := none
  total_duration : Option Nat := none
deriving DecidableEq, Repr

/-- `baseOllamaResponseSchema.safeParse` on one tool-call entry. -/
def validateToolCall (tc : OllamaToolCallRaw) : Option OllamaToolCall := do
  let f ← tc.function
  let n ← f.name
  let a ← f.arguments
  pure { function := { name := n, arguments := a }, id := tc.id }

/-- `baseOllamaResponseSchema.safeParse` on the `message` object. -/
def validateMessage (m : OllamaMessageRaw) : Option OllamaMessage := do
  let c ← m.content
  let r ← m.role
  let tcs ← match m.tool_calls with
    | none => some none
    | some l => (l.mapM validateToolCall).map some
  pure { content := c, role := r, thinking := m.thinking, tool_calls := tcs }

/-- `baseOllamaResponseSchema.safeParse` on a whole response object. -/
def validateResponse (r : OllamaResponseRaw) : Option OllamaResponse := do
  let mo ← r.model
  let ca ← r.created_at
  let d ← r.done
  let mr ← r.message
  let m ← validateMessage mr
  pure { model := mo, created_at := ca, done := d, message := m,
         done_reason := r.done_reason, eval_count := r.eval_count,
         eval_duration := r.eval_duration, load_duration := r.load_duration,
         prompt_eval_count := r.prompt_eval_count,
         prompt_eval_duration := r.prompt_eval_duration,
         total_duration := r.total_duration }

/-- Injection of a validated message back into the raw view: this is how the
decoder code, written defensively against arbitrary runtime data, actually
receives schema-validated values. -/
def OllamaToolCall.toRaw (tc : OllamaToolCall) : OllamaToolCallRaw :=
  { function := some { name := some tc.function.name,
                       arguments := some tc.function.arguments },
    id := tc.id }

/-- Raw view of a validated message. -/
def OllamaMessage.toRaw (m : OllamaMessage) : OllamaMessageRaw :=
  { content := some m.content, role := some m.role, thinking := m.thinking,
    tool_calls := m.tool_calls.map (List.map OllamaToolCall.toRaw) }

/-! ## Malformed-chunk recovery of the responses processor

`extractOllamaResponseObjectsFromChunk` on a failed chunk splits the raw
undecoded text on newlines (`/\r?\n/` in the source; since every segment is
immediately trimmed and `trim` removes a trailing carriage return, splitting
on `'\n'` alone yields the same trimmed segments), parses and
schema-validates each segment independently, and silently drops segments
that fail. -/

/-- Line-oriented recovery of `extractOllamaResponseObjectsFromChunk` on the
raw text of a failed chunk.  `parse` stands for `JSON.parse` into the raw
shape (exceptions mapped to `none`). -/
def extractFromText (parse : List Char → Option OllamaResponseRaw)
    (raw : List Char) : List OllamaResponse :=
  if raw = [] then []
  else
    (splitNlAll raw).filterMap fun line =>
      let t := jsTrim line
      if t = [] then none else (parse t).bind validateResponse

/-- Join a list of lines with newline separators (inverse of splitting). -/
def joinNl : List (List Char) → List Char
  | [] => []
  | [l] => l
  | l :: ls => l ++ '\n' :: joinNl ls

theorem splitNlRem_no_nl {l : List Char} (h : '\n' ∉ l) :
    splitNlRem l = ([], l) := by
  induction l with
  | nil => rfl
  | cons c cs ih =>
    have hc : ¬c = '\n' := fun hh => h (hh ▸ List.mem_cons_self c cs)
    have hcs : '\n' ∉ cs := fun hh => h (List.mem_cons_of_mem c hh)
    simp [splitNlRem, if_neg hc, ih hcs]

theorem splitNlRem_line_append {l t : List Char} (h : '\n' ∉ l) :
    splitNlRem (l ++ '\n' :: t) =
      (l :: (splitNlRem t).1, (splitNlRem t).2) := by
  induction l with
  | nil => simp [splitNlRem]
  | cons c cs ih =>
    have hc : ¬c = '\n' := fun hh => h (hh ▸ List.mem_cons_self c cs)
    have hcs : '\n' ∉ cs := fun hh => h (List.mem_cons_of_mem c hh)
    simp [splitNlRem, if_neg hc, ih hcs]

theorem splitNlAll_joinNl {ls : List (List Char)} (hne : ls ≠ [])
    (h : ∀ l ∈ ls, '\n' ∉ l) : splitNlAll (joinNl ls) = ls := by
  induction ls with
  | nil => exact absurd rfl hne
  | cons l ls ih =>
    cases ls with
    | nil =>
      have hl : '\n' ∉ l := h l (List.mem_cons_self l [])
      simp [joinNl, splitNlAll, splitNlRem_no_nl hl]
    | cons l₂ rest =>
      have hl : '\n' ∉ l := h l (List.mem_cons_self l _)
      have hrest : ∀ x ∈ l₂ :: rest, '\n' ∉ x :=
        fun x hx => h x (List.mem_cons_of_mem l hx)
      have := ih (by simp) hrest
      simp only [joinNl, splitNlAll, splitNlRem_line_append hl]
      simp only [splitNlAll] at this
      simp [this]

theorem joinNl_eq_nil {ls : List (List Char)} (h : joinNl ls = []) :
    ls = [] ∨ ls = [[]] := by
  match ls with
  | [] => exact Or.inl rfl
  | [l] => exact Or.inr (by simp [joinNl] at h; simp [h])
  | l :: l₂ :: rest => simp [joinNl] at h

/-- The per-line decode attempted by the recovery path. -/
def recoverLine (parse : List Char → Option OllamaResponseRaw)
    (line : List Char) : Option OllamaResponse :=
  let t := jsTrim line
  if t = [] then none else (parse t).bind validateResponse

theorem extractFromText_joinNl (parse : List Char → Option OllamaResponseRaw)
    {ls : List (List Char)} (hne : ls ≠ []) (h : ∀ l ∈ ls, '\n' ∉ l) :
    extractFromText parse (joinNl ls) = ls.filterMap (recoverLine parse) := by
  by_cases hj : joinNl ls = []
  · rcases joinNl_eq_nil hj with h0 | h1
    · exact absurd h0 hne
    · subst h1
      simp [extractFromText, hj, recoverLine, jsTrim]
  · unfold extractFromText
    rw [if_neg hj, splitNlAll_joinNl hne h]
    rfl

/-- C4: feeding the NDJSON decoder a single text split across two delivered
chunks at any byte offset yields the same decoded sequence as the unsplit
text, for every parse function; and the line-oriented recovery of
`extractOllamaResponseObjectsFromChunk` drops a line that fails parsing or
schema validation without affecting the sibling lines of the same chunk. -/
theorem ndjson_split_resilient_and_recovery_drops_bad_lines :
    (∀ (α : Type) (parse : List Char → Option α) (t : List Char) (i : ℕ),
        ndjsonRun parse [t.take i, t.drop i] = ndjsonRun parse [t]) ∧
    (∀ (parse : List Char → Option OllamaResponseRaw)
        (pre post : List (List Char)) (bad : List Char),
        (∀ l ∈ pre ++ bad :: post, '\n' ∉ l) →
        (parse (jsTrim bad)).bind validateResponse = none →
        extractFromText parse (joinNl (pre ++ bad :: post)) =
          extractFromText parse (joinNl (pre ++ post))) := by
  constructor
  · intro α parse t i
    unfold ndjsonRun
    rw [ndjsonRunFrom_merge, List.take_append_drop]
  · intro parse pre post bad hnl hbad
    have hfbad : recoverLine parse bad = none := by
      unfold recoverLine
      by_cases ht : jsTrim bad = [] <;> simp [ht, hbad]
    have hl : extractFromText parse (joinNl (pre ++ bad :: post)) =
        (pre ++ bad :: post).filterMap (recoverLine parse) :=
      extractFromText_joinNl parse (by simp) hnl
    rw [hl, List.filterMap_append]
    by_cases hpp : pre ++ post = []
    · rcases List.append_eq_nil.mp hpp with ⟨hp, hq⟩
      subst hp; subst hq
      simp [joinNl, extractFromText, List.filterMap_cons, hfbad]
    · have hnl' : ∀ l ∈ pre ++ post, '\n' ∉ l := by
        intro l hlm
        apply hnl
        rcases List.mem_append.mp hlm with h1 | h2
        · exact List.mem_append.mpr (Or.inl h1)
        · exact List.mem_append.mpr (Or.inr (List.mem_cons_of_mem _ h2))
      rw [extractFromText_joinNl parse hpp hnl', List.filterMap_append]
      simp [List.filterMap_cons, hfbad]

/-- Closed instance of the split-resilience and recovery theorem: a text
split mid-object, and a chunk with one malformed line between two valid
lines, with a concrete parse function. -/
theorem ndjson_split_resilient_witness :
    (ndjsonRun (fun l => if l = ['c', 'd'] then some 1 else none)
        ["ab\ncd".toList.take 4, "ab\ncd".toList.drop 4] =
      ndjsonRun (fun l => if l = ['c', 'd'] then some 1 else none)
        ["ab\ncd".toList]) ∧
    (extractFromText (fun _ => none) (joinNl [['a'], ['b'], ['c']]) =
      extractFromText (fun _ => none) (joinNl [['a'], ['c']])) :=
  ⟨ndjson_split_resilient_and_recovery_drops_bad_lines.1 Nat
      (fun l => if l = ['c', 'd'] then some 1 else none) "ab\ncd".toList 4,
    ndjson_split_resilient_and_recovery_drops_bad_lines.2 (fun _ => none)
      [['a']] [['c']] ['b'] (by decide) rfl⟩

/-! ## Finish-reason mapper (`map-ollama-finish-reason`) -/

/-- A `LanguageModelV3FinishReason`: the canonical value paired with the raw
wire string. -/
structure FinishReasonV3 where
  raw : Option String
  unified : String
deriving DecidableEq, Repr

/-- Direct translation of `mapOllamaFinishReason`. -/
def mapOllamaFinishReason (finishReason : Option String) : FinishReasonV3 :=
  match finishReason with
  | some "stop" => { raw := finishReason, unified := "stop" }
  | some "length" => { raw := finishReason, unified := "length" }
  | some "content_filter" => { raw := finishReason, unified := "content-filter" }
  | some "function_call" => { raw := finishReason, unified := "tool-calls" }
  | some "tool_calls" => { raw := finishReason, unified := "tool-calls" }
  | _ => { raw := finishReason, unified := "other" }

/-- C8: the finish-reason mapper maps the five known wire strings to their
canonical values, everything else (including an absent reason) to the
catch-all value, and always retains the raw input alongside the canonical
value. -/
theorem mapOllamaFinishReason_spec :
    (mapOllamaFinishReason (some "stop")).unified = "stop" ∧
    (mapOllamaFinishReason (some "length")).unified = "length" ∧
    (mapOllamaFinishReason (some "content_filter")).unified = "content-filter" ∧
    (mapOllamaFinishReason (some "function_call")).unified = "tool-calls" ∧
    (mapOllamaFinishReason (some "tool_calls")).unified = "tool-calls" ∧
    (mapOllamaFinishReason none).unified = "other" ∧
    (∀ fr : Option String, (mapOllamaFinishReason fr).raw = fr) ∧
    (∀ s : String, s ≠ "stop" → s ≠ "length" → s ≠ "content_filter" →
      s ≠ "function_call" → s ≠ "tool_calls" →
      (mapOllamaFinishReason (some s)).unified = "other") := by
  refine ⟨rfl, rfl, rfl, rfl, rfl, rfl, ?_, ?_⟩
  · intro fr
    unfold mapOllamaFinishReason
    split <;> rfl
  · intro s h1 h2 h3 h4 h5
    unfold mapOllamaFinishReason
    split <;> simp_all

/-- Closed instance of the finish-reason mapper theorem at the unknown
reason string eos. -/
theorem mapOllamaFinishReason_witness :
    (mapOllamaFinishReason (some "eos")).raw = some "eos" ∧
    (mapOllamaFinishReason (some "eos")).unified = "other" :=
  ⟨mapOllamaFinishReason_spec.2.2.2.2.2.2.1 (some "eos"),
    mapOllamaFinishReason_spec.2.2.2.2.2.2.2 "eos"
      (by decide) (by decide) (by decide) (by decide) (by decide)⟩

/-! ## Message converter (`convertToOllamaChatMessages`) -/

/-- System-message placement policy. -/
inductive SystemMessageMode
  | system
  | developer
  | remove
deriving DecidableEq, Repr

/-- Content part of a user turn (`LanguageModelV2Prompt` user content). -/
inductive UserPart
  | text (text : String)
  | file (mediaType : String) (data : String)
deriving DecidableEq, Repr

/-- Content part of an assistant turn. -/
inductive AssistantPart
  | text (text : String)
  | toolCall (toolCallId : String) (toolName : String)
      (input : List (String × String))
  | reasoning (text : String)
deriving DecidableEq, Repr

/-- Tool-result output union.  The payload of the serialized variants is
carried as its JSON serialization. -/
inductive ToolOutput
  | text (value : String)
  | errorText (value : String)
  | content (serialized : String)
  | json (serialized : String)
  | errorJson (serialized : String)
deriving DecidableEq, Repr

/-- String coercion of a tool-result payload: text-like values pass through,
serialized variants are JSON-stringified. -/
def ToolOutput.contentValue : ToolOutput → String
  | .text v => v
  | .errorText v => v
  | .content s => s
  | .json s => s
  | .errorJson s => s

/-- One tool-result part of a tool turn. -/
structure ToolResultPart where
  toolCallId : String
  output : ToolOutput
deriving DecidableEq, Repr

/-- A provider-agnostic conversation turn. -/
inductive PromptTurn
  | system (content : String)
  | user (content : List UserPart)
  | assistant (content : List AssistantPart)
  | tool (content : List ToolResultPart)
deriving DecidableEq, Repr

/-- The wire `content` of a user message: either the collapsed string form
or the empty array emitted when a multi-part turn has no text. -/
inductive OllamaUserContent
  | str (s : String)
  | emptyArray
deriving DecidableEq, Repr

/-- A wire tool-call entry emitted for an assistant turn. -/
structure OllamaOutToolCall where
  id : String
  name : String
  arguments : List (String × String)
deriving DecidableEq, Repr

/-- A wire chat message. -/
inductive OllamaChatMessage
  | system (content : String)
  | developer (content : String)
  | user (content : OllamaUserContent) (images : Option (List String))
  | assistant (content : String) (thinking : Option String)
      (tool_calls : Option (List OllamaOutToolCall))
  | tool (tool_call_id : String) (content : String)
deriving DecidableEq, Repr

/-- Conversion of one conversation turn; `messages.push` calls of the source
loop become list elements.  The user case guard
`content.length === 1 && content[0].type === 'text'` is the singleton
text-part pattern. -/
def convertTurn (systemMessageMode : SystemMessageMode) :
    PromptTurn → List OllamaChatMessage
  | .system content =>
    match systemMessageMode with
    | .system => [.system content]
    | .developer => [.developer content]
    | .remove => []
  | .user content =>
    match content with
    | [.text t] => [.user (.str t) none]
    | _ =>
      let userText := String.join (content.filterMap fun p =>
        match p with
        | .text t => some t
        | _ => none)
      let images := content.filterMap fun p =>
        match p with
        | .file mt d => if strStartsWith mt "image/" then some d else none
        | _ => none
      [.user (if userText.length > 0 then .str userText else .emptyArray)
        (if images.length > 0 then some images else none)]
  | .assistant content =>
    let text := String.join (content.filterMap fun p =>
      match p with
      | .text t => some t
      | _ => none)
    let thinking := String.join (content.filterMap fun p =>
      match p with
      | .reasoning t => some t
      | _ => none)
    let toolCalls := content.filterMap fun p =>
      match p with
      | .toolCall id name input =>
        some { id := id, name := name, arguments := input : OllamaOutToolCall }
      | _ => none
    [.assistant text (if thinking ≠ "" then some thinking else none)
      (if toolCalls.length > 0 then some toolCalls else none)]
  | .tool content =>
    content.map fun tr => .tool tr.toolCallId tr.output.contentValue

/-- Direct translation of `convertToOllamaChatMessages`: convert every turn
in order, concatenating the pushed messages. -/
def convertToOllamaChatMessages (systemMessageMode : SystemMessageMode)
    (prompt : List PromptTurn) : List OllamaChatMessage :=
  prompt.flatMap (convertTurn systemMessageMode)

/-- C9: a user turn with exactly one text part is always collapsed to the
string content form, never the array form, for every text value and in any
surrounding conversation. -/
theorem convert_single_text_user_collapses :
    ∀ (mode : SystemMessageMode) (pre post : List PromptTurn) (t : String),
      convertToOllamaChatMessages mode (pre ++ .user [.text t] :: post) =
        convertToOllamaChatMessages mode pre ++
          .user (.str t) none :: convertToOllamaChatMessages mode post := by
  intro mode pre post t
  unfold convertToOllamaChatMessages
  rw [List.flatMap_append, List.flatMap_cons]
  rfl

/-! ## Chat model request builder: reasoning-model override pass -/

/-- Chat model family classification (`isReasoningModel` in the source). -/
def isReasoningModel (modelId : String) : Bool :=
  modelId == "o1" || strStartsWith modelId "o1-" ||
    modelId == "o3" || strStartsWith modelId "o3-"

/-- The wire-request fields touched by the reasoning-model override pass of
`getArgs` (numeric sampling values are opaque here; only presence matters
to the pass). -/
structure ChatBaseArgs where
  logit_bias : Option (List (String × Int)) := none
  logprobs : Option Bool := none
  top_logprobs : Option Nat := none
  temperature : Option Int := none
  top_p : Option Int := none
  frequency_penalty : Option Int := none
  presence_penalty : Option Int := none
  max_tokens : Option Nat := none
  max_completion_tokens : Option Nat := none
deriving DecidableEq, Repr

/-- A call warning (`LanguageModelV1CallWarning` shapes used by `getArgs`). -/
inductive CallWarning
  | unsupportedSetting (setting : String) (details : Option String)
  | otherWarning (message : String)
deriving DecidableEq, Repr

/-- The `logprobs` setting of the chat settings object. -/
inductive LogprobsSetting
  | flag (b : Bool)
  | num (n : Nat)
  | unset
deriving DecidableEq, Repr

/-- Wire `logprobs` derivation of `getArgs`: true when the setting is the
boolean true or any number, otherwise absent. -/
def logprobsWire : LogprobsSetting → Option Bool
  | .flag true => some true
  | .num _ => some true
  | _ => none

/-- Wire `top_logprobs` derivation of `getArgs`: a numeric setting passes
through, boolean true becomes 0, anything else is absent. -/
def topLogprobsWire : LogprobsSetting → Option Nat
  | .num n => some n
  | .flag b => if b then some 0 else none
  | .unset => none

/-- Override step for `temperature`. -/
def stepTemperature (p : ChatBaseArgs × List CallWarning) :
    ChatBaseArgs × List CallWarning :=
  if p.1.temperature ≠ none then
    ({ p.1 with temperature := none },
      p.2 ++ [.unsupportedSetting "temperature"
        (some "temperature is not supported for reasoning models")])
  else p

/-- Override step for `top_p`. -/
def stepTopP (p : ChatBaseArgs × List CallWarning) :
    ChatBaseArgs × List CallWarning :=
  if p.1.top_p ≠ none then
    ({ p.1 with top_p := none },
      p.2 ++ [.unsupportedSetting "topP"
        (some "topP is not supported for reasoning models")])
  else p

/-- Override step for `frequency_penalty`. -/
def stepFrequencyPenalty (p : ChatBaseArgs × List CallWarning) :
    ChatBaseArgs × List CallWarning :=
  if p.1.frequency_penalty ≠ none then
    ({ p.1 with frequency_penalty := none },
      p.2 ++ [.unsupportedSetting "frequencyPenalty"
        (some "frequencyPenalty is not supported for reasoning models")])
  else p

/-- Override step for `presence_penalty`. -/
def stepPresencePenalty (p : ChatBaseArgs × List CallWarning) :
    ChatBaseArgs × List CallWarning :=
  if p.1.presence_penalty ≠ none then
    ({ p.1 with presence_penalty := none },
      p.2 ++ [.unsupportedSetting "presencePenalty"
        (some "presencePenalty is not supported for reasoning models")])
  else p

/-- Override step for `logit_bias`. -/
def stepLogitBias (p : ChatBaseArgs × List CallWarning) :
    ChatBaseArgs × List CallWarning :=
  if p.1.logit_bias ≠ none then
    ({ p.1 with logit_bias := none },
      p.2 ++ [.otherWarning "logitBias is not supported for reasoning models"])
  else p

/-- Override step for `logprobs`. -/
def stepLogprobs (p : ChatBaseArgs × List CallWarning) :
    ChatBaseArgs × List CallWarning :=
  if p.1.logprobs ≠ none then
    ({ p.1 with logprobs := none },
      p.2 ++ [.otherWarning "logprobs is not supported for reasoning models"])
  else p

/-- Override step for `top_logprobs`. -/
def stepTopLogprobs (p : ChatBaseArgs × List CallWarning) :
    ChatBaseArgs × List CallWarning :=
  if p.1.top_logprobs ≠ none then
    ({ p.1 with top_logprobs := none },
      p.2 ++ [.otherWarning "topLogprobs is not supported for reasoning models"])
  else p

/-- Relocation of `max_tokens` to `max_completion_tokens` for reasoning
models (no warning is attached). -/
def stepMaxTokens (p : ChatBaseArgs × List CallWarning) :
    ChatBaseArgs × List CallWarning :=
  if p.1.max_tokens ≠ none then
    ({ p.1 with
        max_completion_tokens :=
          if p.1.max_completion_tokens = none then p.1.max_tokens
          else p.1.max_completion_tokens,
        max_tokens := none }, p.2)
  else p

/-- The reasoning-model override pass of `getArgs` (the source block guarded
by `isReasoningModel(this.modelId)`), applied in source order.  The whole
block contains no throwing statement, so it is a total function. -/
def applyReasoningModelOverrides (args : ChatBaseArgs)
    (warnings : List CallWarning) : ChatBaseArgs × List CallWarning :=
  stepMaxTokens (stepTopLogprobs (stepLogprobs (stepLogitBias
    (stepPresencePenalty (stepFrequencyPenalty (stepTopP
      (stepTemperature (args, warnings))))))))

/-- The `getArgs` flow around the pass: the overrides run exactly when the
model id is classified as a reasoning model. -/
def chatGetArgsOverridePass (modelId : String) (args : ChatBaseArgs)
    (warnings : List CallWarning) : ChatBaseArgs × List CallWarning :=
  if isReasoningModel modelId then applyReasoningModelOverrides args warnings
  else (args, warnings)

/-- Specification-side list of the warnings the pass is expected to append:
one warning per supplied setting, in source order. -/
def specReasoningWarnings (args : ChatBaseArgs) : List CallWarning :=
  (if args.temperature.isSome then
    [.unsupportedSetting "temperature"
      (some "temperature is not supported for reasoning models")] else []) ++
  (if args.top_p.isSome then
    [.unsupportedSetting "topP"
      (some "topP is not supported for reasoning models")] else []) ++
  (if args.frequency_penalty.isSome then
    [.unsupportedSetting "frequencyPenalty"
      (some "frequencyPenalty is not supported for reasoning models")] else []) ++
  (if args.presence_penalty.isSome then
    [.unsupportedSetting "presencePenalty"
      (some "presencePenalty is not supported for reasoning models")] else []) ++
  (if args.logit_bias.isSome then
    [.otherWarning "logitBias is not supported for reasoning models"] else []) ++
  (if args.logprobs.isSome then
    [.otherWarning "logprobs is not supported for reasoning models"] else []) ++
  (if args.top_logprobs.isSome then
    [.otherWarning "topLogprobs is not supported for reasoning models"] else [])

/-- Number of supplied settings among the seven stripped fields. -/
def suppliedSettingCount (args : ChatBaseArgs) : Nat :=
  (if args.temperature.isSome then 1 else 0) +
  (if args.top_p.isSome then 1 else 0) +
  (if args.frequency_penalty.isSome then 1 else 0) +
  (if args.presence_penalty.isSome then 1 else 0) +
  (if args.logit_bias.isSome then 1 else 0) +
  (if args.logprobs.isSome then 1 else 0) +
  (if args.top_logprobs.isSome then 1 else 0)

theorem stepTemperature_eq (a : ChatBaseArgs) (w : List CallWarning) :
    stepTemperature (a, w) =
      ({ a with temperature := none },
        w ++ if a.temperature.isSome then
          [.unsupportedSetting "temperature"
            (some "temperature is not supported for reasoning models")]
          else []) := by
  rcases a with ⟨f1, f2, f3, te, f5, f6, f7, f8, f9⟩
  cases te <;> simp [stepTemperature]

theorem stepTopP_eq (a : ChatBaseArgs) (w : List CallWarning) :
    stepTopP (a, w) =
      ({ a with top_p := none },
        w ++ if a.top_p.isSome then
          [.unsupportedSetting "topP"
            (some "topP is not supported for reasoning models")]
          else []) := by
  rcases a with ⟨f1, f2, f3, f4, tp, f6, f7, f8, f9⟩
  cases tp <;> simp [stepTopP]

theorem stepFrequencyPenalty_eq (a : ChatBaseArgs) (w : List CallWarning) :
    stepFrequencyPenalty (a, w) =
      ({ a with frequency_penalty := none },
        w ++ if a.frequency_penalty.isSome then
          [.unsupportedSetting "frequencyPenalty"
            (some "frequencyPenalty is not supported for reasoning models")]
          else []) := by
  rcases a with ⟨f1, f2, f3, f4, f5, fp, f7, f8, f9⟩
  cases fp <;> simp [stepFrequencyPenalty]

theorem stepPresencePenalty_eq (a : ChatBaseArgs) (w : List CallWarning) :
    stepPresencePenalty (a, w) =
      ({ a with presence_penalty := none },
        w ++ if a.presence_penalty.isSome then
          [.unsupportedSetting "presencePenalty"
            (some "presencePenalty is not supported for reasoning models")]
          else []) := by
  rcases a with ⟨f1, f2, f3, f4, f5, f6, pp, f8, f9⟩
  cases pp <;> simp [stepPresencePenalty]

theorem stepLogitBias_eq (a : ChatBaseArgs) (w : List CallWarning) :
    stepLogitBias (a, w) =
      ({ a with logit_bias := none },
        w ++ if a.logit_bias.isSome then
          [.otherWarning "logitBias is not supported for reasoning models"]
          else []) := by
  rcases a with ⟨lb, f2, f3, f4, f5, f6, f7, f8, f9⟩
  cases lb <;> simp [stepLogitBias]

theorem stepLogprobs_eq (a : ChatBaseArgs) (w : List CallWarning) :
    stepLogprobs (a, w) =
      ({ a with logprobs := none },
        w ++ if a.logprobs.isSome then
          [.otherWarning "logprobs is not supported for reasoning models"]
          else []) := by
  rcases a with ⟨f1, lp, f3, f4, f5, f6, f7, f8, f9⟩
  cases lp <;> simp [stepLogprobs]

theorem stepTopLogprobs_eq (a : ChatBaseArgs) (w : List CallWarning) :
    stepTopLogprobs (a, w) =
      ({ a with top_logprobs := none },
        w ++ if a.top_logprobs.isSome then
          [.otherWarning "topLogprobs is not supported for reasoning models"]
          else []) := by
  rcases a with ⟨f1, f2, tlp, f4, f5, f6, f7, f8, f9⟩
  cases tlp <;> simp [stepTopLogprobs]

/-- C7: on a reasoning-classified model id the override pass returns
normally for every combination of supplied settings, strips all seven
settings from the wire body, and appends exactly one warning per supplied
setting (the warnings listed in source order), leaving earlier warnings
untouched. -/
theorem reasoning_overrides_strip_and_warn :
    ∀ (modelId : String) (args : ChatBaseArgs) (ws : List CallWarning),
      isReasoningModel modelId = true →
      (chatGetArgsOverridePass modelId args ws).1.temperature = none ∧
      (chatGetArgsOverridePass modelId args ws).1.top_p = none ∧
      (chatGetArgsOverridePass modelId args ws).1.frequency_penalty = none ∧
      (chatGetArgsOverridePass modelId args ws).1.presence_penalty = none ∧
      (chatGetArgsOverridePass modelId args ws).1.logit_bias = none ∧
      (chatGetArgsOverridePass modelId args ws).1.logprobs = none ∧
      (chatGetArgsOverridePass modelId args ws).1.top_logprobs = none ∧
      (chatGetArgsOverridePass modelId args ws).2 =
        ws ++ specReasoningWarnings args ∧
      (specReasoningWarnings args).length = suppliedSettingCount args := by
  intro modelId args ws hr
  unfold chatGetArgsOverridePass
  rw [if_pos hr]
  unfold applyReasoningModelOverrides
  rw [stepTemperature_eq, stepTopP_eq, stepFrequencyPenalty_eq,
    stepPresencePenalty_eq, stepLogitBias_eq, stepLogprobs_eq,
    stepTopLogprobs_eq]
  unfold stepMaxTokens
  rcases args with ⟨lb, lp, tlp, te, tp, fp, pp, mt, mct⟩
  cases mt <;>
    simp [specReasoningWarnings, suppliedSettingCount, apply_ite List.length,
      List.append_assoc] <;> ring

/-- Closed instance of the override-pass theorem at the model id `o1` with
all seven settings supplied. -/
theorem reasoning_overrides_witness :
    (chatGetArgsOverridePass "o1"
        { logit_bias := some [("1", 1)], logprobs := some true,
          top_logprobs := some 2, temperature := some 1, top_p := some 1,
          frequency_penalty := some 1, presence_penalty := some 1,
          max_tokens := some 10 } []).1.temperature = none ∧
    (specReasoningWarnings
        { logit_bias := some [("1", 1)], logprobs := some true,
          top_logprobs := some 2, temperature := some 1, top_p := some 1,
          frequency_penalty := some 1, presence_penalty := some 1,
          max_tokens := some 10 }).length = 7 := by
  have h := reasoning_overrides_strip_and_warn "o1"
    { logit_bias := some [("1", 1)], logprobs := some true,
      top_logprobs := some 2, temperature := some 1, top_p := some 1,
      frequency_penalty := some 1, presence_penalty := some 1,
      max_tokens := some 10 } [] (by decide)
  exact ⟨h.1, h.2.2.2.2.2.2.2.2⟩

/-! ## Responses endpoint: model config and non-streaming decode -/

/-- JSON.stringify of an arguments object (association-list model). -/
def stringifyArgs (args : List (String × String)) : String :=
  "\x7b" ++
    String.intercalate "," (args.map fun kv => "\"" ++ kv.1 ++ "\":" ++ kv.2) ++
    "\x7d"

/-- Responses model-family descriptor. -/
structure ResponsesModelConfig where
  isReasoningModel : Bool
  systemMessageMode : SystemMessageMode
  requiredAutoTruncation : Bool
deriving DecidableEq, Repr

/-- Direct translation of `getResponsesModelConfig`. -/
def getResponsesModelConfig (modelId : String) : ResponsesModelConfig :=
  if strStartsWith modelId "o" then
    if strStartsWith modelId "o1-mini" || strStartsWith modelId "o1-preview" then
      { isReasoningModel := true, systemMessageMode := .remove,
        requiredAutoTruncation := false }
    else
      { isReasoningModel := true, systemMessageMode := .developer,
        requiredAutoTruncation := false }
  else
    { isReasoningModel := false, systemMessageMode := .system,
      requiredAutoTruncation := false }

/-- `LanguageModelV2Usage` as returned by the responses `doGenerate`. -/
structure LanguageModelUsage where
  inputTokens : Option Nat := none
  outputTokens : Option Nat := none
  totalTokens : Option Nat := none
  reasoningTokens : Option Nat := none
  cachedInputTokens : Option Nat := none
deriving DecidableEq, Repr

/-- One entry of the `content` array of a non-streaming result. -/
inductive GeneratedContent
  | text (text : String)
  | toolCall (toolCallId : String) (toolName : String) (input : String)
deriving DecidableEq, Repr

/-- The decoded part of a responses `doGenerate` result. -/
structure GenerateResult where
  content : List GeneratedContent
  finishReason : FinishReasonV3
  usage : LanguageModelUsage
deriving DecidableEq, Repr

/-- Tool-call decode loop of the responses `doGenerate`: entries without a
wire id consume one fresh generated id. -/
def decodeResponsesToolCalls (genId : Nat → String) :
    Nat → List OllamaToolCall → List GeneratedContent
  | _, [] => []
  | n, tc :: rest =>
    match tc.id with
    | some i =>
      .toolCall i tc.function.name (stringifyArgs tc.function.arguments) ::
        decodeResponsesToolCalls genId n rest
    | none =>
      .toolCall (genId n) tc.function.name (stringifyArgs tc.function.arguments) ::
        decodeResponsesToolCalls genId (n + 1) rest

/-- Response decode of the responses `doGenerate`: text content is emitted
only when non-empty, tool calls follow, the finish reason is mapped, and
usage is populated field by field exactly as the source does (note that
`totalTokens` and `reasoningTokens` copy `eval_count`). -/
def responsesDoGenerateDecode (genId : Nat → String)
    (response : OllamaResponse) : GenerateResult :=
  { content :=
      (if response.message.content.length > 0 then
        [.text response.message.content] else []) ++
        decodeResponsesToolCalls genId 0 (response.message.tool_calls.getD []),
    finishReason := mapOllamaFinishReason response.done_reason,
    usage :=
      { inputTokens := response.prompt_eval_count,
        outputTokens := response.eval_count,
        totalTokens := response.eval_count,
        reasoningTokens := response.eval_count,
        cachedInputTokens := none } }

/-- The concrete wire response of the C5 scenario. -/
def wireC5 : OllamaResponse :=
  { model := "llama3.1", created_at := "2024-01-01T00:00:00.000Z",
    done := true,
    message := { content := "Hi there", role := "assistant" },
    done_reason := some "stop", eval_count := some 5,
    prompt_eval_count := some 3 }

/-- C5 as stated is false on the code: for the scenario wire response the
responses `doGenerate` reports `totalTokens` equal to `eval_count` (5), not
`prompt_eval_count + eval_count` (8); the repository test suite pins the
same behavior (usage expectation `totalTokens: 20` for
`prompt_eval_count: 10, eval_count: 20`). -/
theorem responses_doGenerate_totalTokens_counterexample :
    (responsesDoGenerateDecode (fun n => "id-" ++ toString n) wireC5).usage.totalTokens
      = some 5 ∧
    ¬ (responsesDoGenerateDecode (fun n => "id-" ++ toString n) wireC5).usage.totalTokens
      = some 8 := by
  constructor
  · rfl
  · intro h
    simp [responsesDoGenerateDecode, wireC5] at h

/-- C5 amended: the scenario conversation collapses to the expected wire
message, the model id is classified standard, and the wire response decodes
to `content=[text]`, finish reason stop (raw retained), and usage
`inputTokens=3, outputTokens=5, totalTokens=5` (with `reasoningTokens=5`),
`totalTokens` copying `eval_count` rather than summing. -/
theorem responses_doGenerate_scenario :
    convertToOllamaChatMessages .system [.user [.text "Hello"]] =
      [.user (.str "Hello") none] ∧
    getResponsesModelConfig "llama3.1" =
      { isReasoningModel := false, systemMessageMode := .system,
        requiredAutoTruncation := false } ∧
    responsesDoGenerateDecode (fun n => "id-" ++ toString n) wireC5 =
      { content := [.text "Hi there"],
        finishReason := { raw := some "stop", unified := "stop" },
        usage := { inputTokens := some 3, outputTokens := some 5,
                   totalTokens := some 5, reasoningTokens := some 5,
                   cachedInputTokens := none } } := by
  refine ⟨rfl, ?_, rfl⟩
  decide

/-! ## The `OllamaStreamProcessor` state machine

The transform stream is modelled as an explicit fold over the list of
delivered parse results.  Emissions are accumulated in order; a thrown
`InvalidResponseDataError` becomes an `Except.error` carrying the events
already emitted before the throw. -/

/-- A finish-reason slot as JavaScript stores it: the initial value
unknown and the error value are plain strings, while a done fragment
stores the result of the finish-reason mapper. -/
inductive FinishValue
  | plain (s : String)
  | mapped (fr : FinishReasonV3)
deriving DecidableEq, Repr

/-- The streaming usage record of the processor state. -/
structure UsageParts where
  inputTokens : Option Nat := none
  outputTokens : Option Nat := none
  totalTokens : Option Nat := none
deriving DecidableEq, Repr

/-- A `LanguageModelV2StreamPart` as emitted by the processor. -/
inductive StreamPart
  | streamStart (warnings : List String)
  | responseMetadata (modelId : Option String) (timestamp : Option String)
  | textStart (id : String)
  | textDelta (id : String) (delta : String)
  | textEnd (id : String)
  | reasoningStart (id : String)
  | reasoningDelta (id : String) (delta : String)
  | reasoningEnd (id : String)
  | toolInputStart (id : String) (toolName : String)
  | toolInputDelta (id : String) (delta : String)
  | toolInputEnd (id : String)
  | toolCall (toolCallId : String) (toolName : String) (input : String)
  | errorPart
  | rawPart
  | finish (finishReason : FinishValue) (usage : UsageParts)
      (responseId : Option String)
deriving DecidableEq, Repr

/-- `getResponseMetadata`: identifying fields of the first fragment (the
timestamp is carried as the `created_at` string; the source wraps it in a
`Date`). -/
def getResponseMetadata (v : OllamaResponse) : StreamPart :=
  .responseMetadata (some v.model) (some v.created_at)

/-- Per-decode configuration: the lazily generated text channel id
(`generateId()` in `initializeState`), the fresh-id supply used for tool
calls without a wire id, the `includeRawChunks` option, the warnings for
the `stream-start` event, and the `JSON.parse` model for recovery. -/
structure StreamProcessorConfig where
  textId : String
  genId : Nat → String
  includeRawChunks : Bool := false
  warnings : List String := []
  jsonParse : List Char → Option OllamaResponseRaw := fun _ => none

/-- The mutable `StreamState` of the processor (the text id lives in the
configuration; `nextId` indexes the fresh-id supply). -/
structure PState where
  finishReason : FinishValue := .plain "unknown"
  usage : UsageParts := {}
  responseId : Option String := none
  hasToolCalls : Bool := false
  isFirstChunk : Bool := true
  hasTextStarted : Bool := false
  hasReasoningStarted : Bool := false
  textEnded : Bool := false
  reasoningEnded : Bool := false
  nextId : Nat := 0
deriving DecidableEq, Repr

/-- `initializeState`. -/
def initializeState : PState := {}

/-- Payload of an `InvalidResponseDataError` thrown for a tool call whose
function name is missing. -/
structure InvalidResponseData where
  data : OllamaToolCallRaw
deriving DecidableEq, Repr

/-- A parse result delivered to the transform: either a schema-validated
response value or a failure carrying the undecoded chunk text. -/
inductive Chunk
  | success (value : OllamaResponse)
  | failure (text : List Char)
deriving DecidableEq, Repr

/-- `processTextContent`: the guard is `content != null`, so the empty
string also produces a delta; the text channel starts lazily. -/
def processTextContent (cfg : StreamProcessorConfig) (s : PState)
    (m : OllamaMessageRaw) : PState × List StreamPart :=
  match m.content with
  | some c =>
    if s.hasTextStarted then (s, [.textDelta cfg.textId c])
    else ({ s with hasTextStarted := true },
      [.textStart cfg.textId, .textDelta cfg.textId c])
  | none => (s, [])

/-- `processThinking`: the guard is JavaScript truthiness of
`delta.thinking`, so the empty string emits nothing. -/
def processThinking (s : PState) (m : OllamaMessageRaw) :
    PState × List StreamPart :=
  match m.thinking with
  | some t =>
    if t = "" then (s, [])
    else if s.hasReasoningStarted then (s, [.reasoningDelta "0" t])
    else ({ s with hasReasoningStarted := true },
      [.reasoningStart "0", .reasoningDelta "0" t])
  | none => (s, [])

/-- `emitToolCall` for an entry with non-null name and arguments (the
fields the guarded call site has already read): the four-event burst with
one id, `toolCall.id ?? generateId()`. -/
def emitToolCall (cfg : StreamProcessorConfig) (s : PState) (name : String)
    (args : List (String × String)) (tcId : Option String) :
    PState × List StreamPart :=
  let id := tcId.getD (cfg.genId s.nextId)
  ({ s with
      hasToolCalls := true
      nextId := (if tcId = none then s.nextId + 1 else s.nextId) },
    [.toolInputStart id name,
     .toolInputDelta id (stringifyArgs args),
     .toolInputEnd id,
     .toolCall id name (stringifyArgs args)])

/-- `processToolCalls`: a null function name throws
`InvalidResponseDataError` (the error carries the events emitted for
earlier entries); an entry with name and arguments present emits its
burst; an entry with a name but null arguments emits nothing. -/
def processToolCalls (cfg : StreamProcessorConfig) (s : PState) :
    List OllamaToolCallRaw →
      Except (List StreamPart × InvalidResponseData) (PState × List StreamPart)
  | [] => .ok (s, [])
  | tc :: rest =>
    match tc.function.bind OllamaToolCallFunctionRaw.name with
    | none => .error ([], ⟨tc⟩)
    | some name =>
      match tc.function.bind OllamaToolCallFunctionRaw.arguments with
      | some args =>
        let r := emitToolCall cfg s name args tc.id
        match processToolCalls cfg r.1 rest with
        | .ok (s₂, out₂) => .ok (s₂, r.2 ++ out₂)
        | .error (outE, e) => .error (r.2 ++ outE, e)
      | none => processToolCalls cfg s rest

/-- `processDelta`: text, then thinking, then tool calls. -/
def processDelta (cfg : StreamProcessorConfig) (s : PState)
    (m : OllamaMessageRaw) :
    Except (List StreamPart × InvalidResponseData) (PState × List StreamPart) :=
  let p₁ := processTextContent cfg s m
  let p₂ := processThinking p₁.1 m
  match processToolCalls cfg p₂.1 (m.tool_calls.getD []) with
  | .ok (s₃, o₃) => .ok (s₃, p₁.2 ++ p₂.2 ++ o₃)
  | .error (oE, e) => .error (p₁.2 ++ p₂.2 ++ oE, e)

/-- `handleDoneChunk`: map the finish reason, capture usage
(`prompt_eval_count || 0`, `eval_count ?? undefined`, and the sum with
null counts defaulted to 0), then close any started channel that has not
ended, text before reasoning. -/
def handleDoneChunk (cfg : StreamProcessorConfig) (s : PState)
    (v : OllamaResponse) : PState × List StreamPart :=
  let s₀ := { s with
    finishReason := .mapped (mapOllamaFinishReason v.done_reason),
    usage :=
      { inputTokens := some (v.prompt_eval_count.getD 0),
        outputTokens := v.eval_count,
        totalTokens := some (v.prompt_eval_count.getD 0 + v.eval_count.getD 0) } }
  let p₁ :=
    if s₀.hasTextStarted && !s₀.textEnded then
      ({ s₀ with textEnded := true }, [StreamPart.textEnd cfg.textId])
    else (s₀, [])
  if p₁.1.hasReasoningStarted && !p₁.1.reasoningEnded then
    ({ p₁.1 with reasoningEnded := true }, p₁.2 ++ [.reasoningEnd "0"])
  else p₁

/-- `processResponseValue`: first-chunk metadata, then done handling, then
the delta.  The error-in-value branch of the source is unreachable for
schema-validated values (zod strips unknown keys) and has no counterpart
in the validated type. -/
def processResponseValue (cfg : StreamProcessorConfig) (s : PState)
    (v : OllamaResponse) :
    Except (List StreamPart × InvalidResponseData) (PState × List StreamPart) :=
  let p₁ :=
    if s.isFirstChunk then
      ({ s with isFirstChunk := false }, [getResponseMetadata v])
    else (s, [])
  let p₂ := if v.done then handleDoneChunk cfg p₁.1 v else (p₁.1, [])
  match processDelta cfg p₂.1 v.message.toRaw with
  | .ok (s₃, o₃) => .ok (s₃, p₁.2 ++ p₂.2 ++ o₃)
  | .error (oE, e) => .error (p₁.2 ++ p₂.2 ++ oE, e)

/-- Sequential processing of the values extracted from one chunk. -/
def processValues (cfg : StreamProcessorConfig) (s : PState) :
    List OllamaResponse →
      Except (List StreamPart × InvalidResponseData) (PState × List StreamPart)
  | [] => .ok (s, [])
  | v :: vs =>
    match processResponseValue cfg s v with
    | .ok (s₁, o₁) =>
      match processValues cfg s₁ vs with
      | .ok (s₂, o₂) => .ok (s₂, o₁ ++ o₂)
      | .error (oE, e) => .error (o₁ ++ oE, e)
    | .error (oE, e) => .error (oE, e)

/-- `extractOllamaResponseObjectsFromChunk` as used by the processor. -/
def extractChunkValues (cfg : StreamProcessorConfig) :
    Chunk → List OllamaResponse
  | .success v => [v]
  | .failure raw => extractFromText cfg.jsonParse raw

/-- `processChunk`: optional raw event, extraction, the unrecoverable-error
path (finish reason set to error, one error event), or value processing. -/
def processChunk (cfg : StreamProcessorConfig) (s : PState) (c : Chunk) :
    Except (List StreamPart × InvalidResponseData) (PState × List StreamPart) :=
  let rawOut : List StreamPart :=
    if cfg.includeRawChunks then [.rawPart] else []
  let values := extractChunkValues cfg c
  if values = [] then
    match c with
    | .failure _ =>
      .ok ({ s with finishReason := .plain "error" }, rawOut ++ [.errorPart])
    | .success _ => .ok (s, rawOut)
  else
    match processValues cfg s values with
    | .ok (s', o) => .ok (s', rawOut ++ o)
    | .error (oE, e) => .error (rawOut ++ oE, e)

/-- `finalizeStream`: synthesize missing channel ends, then the single
`finish` event with the captured finish reason, usage, and metadata. -/
def finalizeStream (cfg : StreamProcessorConfig) (s : PState) :
    List StreamPart :=
  (if s.hasTextStarted && !s.textEnded then [StreamPart.textEnd cfg.textId]
    else []) ++
  (if s.hasReasoningStarted && !s.reasoningEnded then [.reasoningEnd "0"]
    else []) ++
  [.finish s.finishReason s.usage s.responseId]

/-- Fold of `transform` over the chunk list. -/
def runChunks (cfg : StreamProcessorConfig) (s : PState) :
    List Chunk →
      Except (List StreamPart × InvalidResponseData) (PState × List StreamPart)
  | [] => .ok (s, [])
  | c :: cs =>
    match processChunk cfg s c with
    | .ok (s₁, o₁) =>
      match runChunks cfg s₁ cs with
      | .ok (s₂, o₂) => .ok (s₂, o₁ ++ o₂)
      | .error (oE, e) => .error (o₁ ++ oE, e)
    | .error (oE, e) => .error (oE, e)

/-- `createTransformStream`: `start` emits `stream-start`, the chunks are
transformed in order, and `flush` finalizes.  On a thrown error the stream
is errored and `flush` never runs. -/
def runProcessor (cfg : StreamProcessorConfig) (chunks : List Chunk) :
    Except (List StreamPart × InvalidResponseData) (List StreamPart) :=
  match runChunks cfg initializeState chunks with
  | .ok (sF, out) =>
    .ok (.streamStart cfg.warnings :: (out ++ finalizeStream cfg sF))
  | .error (oE, e) => .error (.streamStart cfg.warnings :: oE, e)

/-! ## Event counting helpers -/

/-- Number of elements satisfying a Boolean predicate. -/
def countIn {α : Type} (p : α → Bool) : List α → Nat
  | [] => 0
  | e :: rest => (if p e then 1 else 0) + countIn p rest

theorem countIn_append {α : Type} (p : α → Bool) (l₁ l₂ : List α) :
    countIn p (l₁ ++ l₂) = countIn p l₁ + countIn p l₂ := by
  induction l₁ with
  | nil => simp [countIn]
  | cons e rest ih => simp [countIn, ih]; ring

/-- Tool-lifecycle event test (any of the four tool event kinds). -/
def isToolEvent : StreamPart → Bool
  | .toolInputStart _ _ => true
  | .toolInputDelta _ _ => true
  | .toolInputEnd _ => true
  | .toolCall _ _ _ => true
  | _ => false

/-- `tool-input-start` for a given id. -/
def isToolStartFor (target : String) : StreamPart → Bool
  | .toolInputStart i _ => i == target
  | _ => false

/-- `tool-input-delta` for a given id. -/
def isToolDeltaFor (target : String) : StreamPart → Bool
  | .toolInputDelta i _ => i == target
  | _ => false

/-- `tool-input-end` for a given id. -/
def isToolEndFor (target : String) : StreamPart → Bool
  | .toolInputEnd i => i == target
  | _ => false

/-- `text-start` for a given id. -/
def isTextStartFor (target : String) : StreamPart → Bool
  | .textStart i => i == target
  | _ => false

/-- `text-delta` for a given id. -/
def isTextDeltaFor (target : String) : StreamPart → Bool
  | .textDelta i _ => i == target
  | _ => false

/-- `text-end` for a given id. -/
def isTextEndFor (target : String) : StreamPart → Bool
  | .textEnd i => i == target
  | _ => false

/-- `reasoning-start` for a given id. -/
def isReasStartFor (target : String) : StreamPart → Bool
  | .reasoningStart i => i == target
  | _ => false

/-- `reasoning-delta` for a given id. -/
def isReasDeltaFor (target : String) : StreamPart → Bool
  | .reasoningDelta i _ => i == target
  | _ => false

/-- `reasoning-end` for a given id. -/
def isReasEndFor (target : String) : StreamPart → Bool
  | .reasoningEnd i => i == target
  | _ => false

/-- `finish` event test. -/
def isFinishPart : StreamPart → Bool
  | .finish _ _ _ => true
  | _ => false

/-! ## Responses endpoint `doStream` tool-call loop -/

/-- The tool-call loop of the responses `doStream` transform: same null-name
throw and non-empty-arguments guard as the chat model, but it emits only
`tool-input-delta` and `tool-call` (no `tool-input-start`/`-end`), always
under a freshly generated id. -/
def responsesProcessToolCalls (genId : Nat → String) (n : Nat) :
    List OllamaToolCallRaw →
      Except (List StreamPart × InvalidResponseData) (Nat × List StreamPart)
  | [] => .ok (n, [])
  | tc :: rest =>
    match tc.function.bind OllamaToolCallFunctionRaw.name with
    | none => .error ([], ⟨tc⟩)
    | some name =>
      match tc.function.bind OllamaToolCallFunctionRaw.arguments with
      | some args =>
        if args.length > 0 then
          let id := genId n
          let out := [StreamPart.toolInputDelta id (stringifyArgs args),
            StreamPart.toolCall id name (stringifyArgs args)]
          match responsesProcessToolCalls genId (n + 1) rest with
          | .ok (n₂, o₂) => .ok (n₂, out ++ o₂)
          | .error (oE, e) => .error (out ++ oE, e)
        else responsesProcessToolCalls genId n rest
      | none => responsesProcessToolCalls genId n rest

theorem processTextContent_events_not_tool (cfg : StreamProcessorConfig)
    (s : PState) (m : OllamaMessageRaw) :
    ∀ e ∈ (processTextContent cfg s m).2, isToolEvent e = false := by
  unfold processTextContent
  rcases m.content with _ | c <;> [skip; rcases hs : s.hasTextStarted] <;>
    simp [isToolEvent]

theorem processThinking_events_not_tool (s : PState) (m : OllamaMessageRaw) :
    ∀ e ∈ (processThinking s m).2, isToolEvent e = false := by
  unfold processThinking
  rcases m.thinking with _ | t
  · simp
  · by_cases ht : t = "" <;> rcases hs : s.hasReasoningStarted <;>
      simp [ht, isToolEvent]

/-- C10: for every schema-validated fragment the processor emits a
text-delta (lazily opening the text channel on the first), even when
`message.content` is the empty string, because the guard is
`content != null` and validated messages always carry a content string; a
reasoning-delta is emitted only for a non-empty `thinking` string, so an
empty-string thinking never opens the reasoning channel. -/
theorem processor_text_guard_vs_thinking_guard :
    (∀ (cfg : StreamProcessorConfig) (s : PState) (v : OllamaResponse),
        (processTextContent cfg s v.message.toRaw).2 =
          (if s.hasTextStarted then [] else [.textStart cfg.textId]) ++
            [.textDelta cfg.textId v.message.content]) ∧
    (∀ (s : PState) (m : OllamaMessageRaw),
        m.thinking = some "" → processThinking s m = (s, [])) ∧
    (∀ (s : PState) (m : OllamaMessageRaw) (t : String),
        m.thinking = some t → t ≠ "" →
        (processThinking s m).2 =
          (if s.hasReasoningStarted then [] else [.reasoningStart "0"]) ++
            [.reasoningDelta "0" t]) := by
  refine ⟨?_, ?_, ?_⟩
  · intro cfg s v
    unfold processTextContent OllamaMessage.toRaw
    rcases hs : s.hasTextStarted <;> simp [hs]
  · intro s m h
    unfold processThinking
    rw [h]
    simp
  · intro s m t h ht
    unfold processThinking
    rw [h]
    rcases hs : s.hasReasoningStarted <;> simp [ht, hs]

/-- Closed instance of the delta-guard theorem: a validated fragment with
empty content still emits a text-delta; an empty thinking string emits no
reasoning events; a non-empty thinking does. -/
theorem processor_text_guard_witness :
    ((processTextContent
        { textId := "t0", genId := fun _ => "g" }
        initializeState
        (OllamaMessage.toRaw { content := "", role := "assistant" })).2 =
      [.textStart "t0", .textDelta "t0" ""]) ∧
    (processThinking initializeState { thinking := some "" } =
      (initializeState, [])) ∧
    ((processThinking initializeState { thinking := some "think" }).2 =
      [.reasoningStart "0", .reasoningDelta "0" "think"]) :=
  ⟨processor_text_guard_vs_thinking_guard.1
      { textId := "t0", genId := fun _ => "g" } initializeState
      { message := { content := "", role := "assistant" } },
    processor_text_guard_vs_thinking_guard.2.1 initializeState
      { thinking := some "" } rfl,
    processor_text_guard_vs_thinking_guard.2.2 initializeState
      { thinking := some "think" } "think" rfl (by decide)⟩

/-- C3 as stated is false for the responses `doStream` transform, one of
its two cited decoders: a complete tool-call entry (name and non-empty
arguments) yields only the two events `tool-input-delta` and `tool-call`;
no `tool-input-start` (or `tool-input-end`) is emitted. -/
theorem responses_tool_call_burst_counterexample :
    responsesProcessToolCalls (fun n => "g" ++ toString n) 0
        [{ function := some { name := some "f", arguments := some [("a", "1")] },
           id := some "x" }] =
      .ok (1, [.toolInputDelta "g0" (stringifyArgs [("a", "1")]),
        .toolCall "g0" "f" (stringifyArgs [("a", "1")])]) ∧
    countIn (isToolStartFor "g0")
        [StreamPart.toolInputDelta "g0" (stringifyArgs [("a", "1")]),
         StreamPart.toolCall "g0" "f" (stringifyArgs [("a", "1")])] = 0 :=
  ⟨rfl, rfl⟩

theorem processTextContent_nextId (cfg : StreamProcessorConfig) (s : PState)
    (m : OllamaMessageRaw) :
    (processTextContent cfg s m).1.nextId = s.nextId := by
  unfold processTextContent
  rcases m.content with _ | c
  · simp
  · rcases hs : s.hasTextStarted <;> simp [hs]

theorem processThinking_nextId (s : PState) (m : OllamaMessageRaw) :
    (processThinking s m).1.nextId = s.nextId := by
  unfold processThinking
  rcases m.thinking with _ | t
  · simp
  · by_cases ht : t = "" <;> rcases hs : s.hasReasoningStarted <;>
      simp [ht, hs]

/-- C3 amended: the `OllamaStreamProcessor` emits the four-event burst
`tool-input-start, tool-input-delta, tool-input-end, tool-call` under one
shared id, contiguously at the end of the fragment decode; the responses
`doStream` transform instead emits only the pair
`tool-input-delta, tool-call`, also under one shared id. -/
theorem tool_call_burst_amended :
    (∀ (cfg : StreamProcessorConfig) (s : PState) (name : String)
        (args : List (String × String)) (tcId : Option String),
        ∃ id, (emitToolCall cfg s name args tcId).2 =
          [.toolInputStart id name, .toolInputDelta id (stringifyArgs args),
            .toolInputEnd id, .toolCall id name (stringifyArgs args)]) ∧
    (∀ (cfg : StreamProcessorConfig) (s : PState) (m : OllamaMessage)
        (tc : OllamaToolCall),
        m.tool_calls = some [tc] →
        ∃ s' pre, processDelta cfg s m.toRaw = .ok (s', pre ++
            [.toolInputStart (tc.id.getD (cfg.genId s.nextId)) tc.function.name,
             .toolInputDelta (tc.id.getD (cfg.genId s.nextId))
               (stringifyArgs tc.function.arguments),
             .toolInputEnd (tc.id.getD (cfg.genId s.nextId)),
             .toolCall (tc.id.getD (cfg.genId s.nextId)) tc.function.name
               (stringifyArgs tc.function.arguments)]) ∧
          ∀ e ∈ pre, isToolEvent e = false) ∧
    (∀ (genId : Nat → String) (n : Nat) (nm : String) (a : String × String)
        (as : List (String × String)) (tcid : Option String),
        responsesProcessToolCalls genId n
            [{ function := some { name := some nm, arguments := some (a :: as) },
               id := tcid }] =
          .ok (n + 1,
            [.toolInputDelta (genId n) (stringifyArgs (a :: as)),
             .toolCall (genId n) nm (stringifyArgs (a :: as))])) := by
  refine ⟨?_, ?_, ?_⟩
  · intro cfg s name args tcId
    exact ⟨tcId.getD (cfg.genId s.nextId), rfl⟩
  · intro cfg s m tc htc
    have hraw : m.toRaw.tool_calls.getD [] = [tc.toRaw] := by
      unfold OllamaMessage.toRaw
      rw [htc]
      rfl
    have hsingle : ∀ s₀ : PState, processToolCalls cfg s₀ [tc.toRaw] =
        .ok (emitToolCall cfg s₀ tc.function.name tc.function.arguments tc.id) := by
      intro s₀
      unfold processToolCalls OllamaToolCall.toRaw
      simp [processToolCalls]
    have hdelta : processDelta cfg s m.toRaw =
        .ok ((emitToolCall cfg
            (processThinking (processTextContent cfg s m.toRaw).1 m.toRaw).1
            tc.function.name tc.function.arguments tc.id).1,
          (processTextContent cfg s m.toRaw).2 ++
            (processThinking (processTextContent cfg s m.toRaw).1 m.toRaw).2 ++
            (emitToolCall cfg
              (processThinking (processTextContent cfg s m.toRaw).1 m.toRaw).1
              tc.function.name tc.function.arguments tc.id).2) := by
      unfold processDelta
      rw [hraw]
      simp only [hsingle]
    have hnext :
        (processThinking (processTextContent cfg s m.toRaw).1 m.toRaw).1.nextId =
          s.nextId := by
      rw [processThinking_nextId, processTextContent_nextId]
    refine ⟨(emitToolCall cfg
        (processThinking (processTextContent cfg s m.toRaw).1 m.toRaw).1
        tc.function.name tc.function.arguments tc.id).1,
      (processTextContent cfg s m.toRaw).2 ++
        (processThinking (processTextContent cfg s m.toRaw).1 m.toRaw).2,
      ?_, ?_⟩
    · rw [hdelta]
      have hburst : (emitToolCall cfg
          (processThinking (processTextContent cfg s m.toRaw).1 m.toRaw).1
          tc.function.name tc.function.arguments tc.id).2 =
          [.toolInputStart (tc.id.getD (cfg.genId s.nextId)) tc.function.name,
           .toolInputDelta (tc.id.getD (cfg.genId s.nextId))
             (stringifyArgs tc.function.arguments),
           .toolInputEnd (tc.id.getD (cfg.genId s.nextId)),
           .toolCall (tc.id.getD (cfg.genId s.nextId)) tc.function.name
             (stringifyArgs tc.function.arguments)] := by
        unfold emitToolCall
        rw [hnext]
      rw [hburst]
    · intro e he
      rcases List.mem_append.mp he with hm | hm
      · exact processTextContent_events_not_tool _ _ _ e hm
      · exact processThinking_events_not_tool _ _ e hm
  · intro genId n nm a as tcid
    unfold responsesProcessToolCalls
    simp [responsesProcessToolCalls]

/-- Concrete configuration used by closed witness instances. -/
def burstCfg : StreamProcessorConfig :=
  { textId := "t0", genId := fun n => "g" ++ toString n }

/-- Concrete complete tool-call entry used by closed witness instances. -/
def burstTc : OllamaToolCall :=
  { function := { name := "f", arguments := [("a", "1")] }, id := none }

/-- Concrete message carrying one complete tool call. -/
def burstMsg : OllamaMessage :=
  { content := ""
    role := "assistant"
    tool_calls := some [burstTc] }

/-- Closed instance of the tool-call burst theorem: the processor burst for
a concrete complete entry, the fragment-level decode, and the two-event
responses loop. -/
theorem tool_call_burst_witness :
    (∃ id, (emitToolCall burstCfg initializeState "f" [("a", "1")] none).2 =
      [.toolInputStart id "f", .toolInputDelta id (stringifyArgs [("a", "1")]),
        .toolInputEnd id, .toolCall id "f" (stringifyArgs [("a", "1")])]) ∧
    (∃ s' pre,
      processDelta burstCfg initializeState burstMsg.toRaw =
        .ok (s', pre ++
          [.toolInputStart (burstTc.id.getD
              (burstCfg.genId initializeState.nextId)) burstTc.function.name,
           .toolInputDelta (burstTc.id.getD
              (burstCfg.genId initializeState.nextId))
             (stringifyArgs burstTc.function.arguments),
           .toolInputEnd (burstTc.id.getD
              (burstCfg.genId initializeState.nextId)),
           .toolCall (burstTc.id.getD
              (burstCfg.genId initializeState.nextId)) burstTc.function.name
             (stringifyArgs burstTc.function.arguments)]) ∧
        ∀ e ∈ pre, isToolEvent e = false) ∧
    (responsesProcessToolCalls (fun n => "g" ++ toString n) 0
        [{ function := some { name := some "f", arguments := some [("a", "1")] },
           id := none }] =
      .ok (1, [.toolInputDelta "g0" (stringifyArgs [("a", "1")]),
        .toolCall "g0" "f" (stringifyArgs [("a", "1")])])) :=
  ⟨tool_call_burst_amended.1 burstCfg initializeState "f" [("a", "1")] none,
    tool_call_burst_amended.2.1 burstCfg initializeState burstMsg burstTc rfl,
    tool_call_burst_amended.2.2 (fun n => "g" ++ toString n) 0 "f" ("a", "1")
      [] none⟩

/-! ## Chat model `doStream` transform

The v1 chat model transform shares the wire schema but emits flat
`text-delta`/`reasoning`/`tool-call-delta`/`tool-call` parts without
start/end framing, recovers failed chunks by re-parsing each line of the
raw text without schema validation, and emits the single `finish` event in
`flush`. -/

/-- A `LanguageModelV1StreamPart` as emitted by the chat model transform
(`NaN` usage values are modelled as `none`). -/
inductive ChatPart
  | responseMetadata (modelId : Option String) (timestamp : Option String)
  | textDelta (textDelta : Option String)
  | reasoning (textDelta : Option String)
  | toolCallDelta (toolCallId : String) (toolName : String)
      (argsTextDelta : String)
  | toolCall (toolCallId : String) (toolName : String) (args : String)
  | errorPart
  | finish (finishReason : FinishValue) (promptTokens : Option Nat)
      (completionTokens : Option Nat)
deriving DecidableEq, Repr

/-- Closure state of the chat `doStream` transform. -/
structure ChatState where
  finishReason : FinishValue := .plain "unknown"
  promptTokens : Option Nat := none
  completionTokens : Option Nat := none
  isFirstChunk : Bool := true
  nextId : Nat := 0
deriving DecidableEq, Repr

/-- Chat transform configuration: the fresh-id supply and the model of one
line of the recovery loop (`JSON.parse(line)` followed by the
`parsed.message.content` / `parsed.message.thinking` accesses): `none`
stands for a thrown exception, `some (content?, thinking?)` for the two
values the loop enqueues. -/
structure ChatStreamConfig where
  genId : Nat → String
  lineEval : List Char → Option (Option String × Option String) :=
    fun _ => none

/-- The chat tool-call loop: null name throws; an entry with a name and a
non-empty arguments object emits `tool-call-delta` then `tool-call` under
one freshly generated id; empty or missing arguments emit nothing. -/
def chatProcessToolCalls (cfg : ChatStreamConfig) (n : Nat) :
    List OllamaToolCallRaw →
      Except (List ChatPart × InvalidResponseData) (Nat × List ChatPart)
  | [] => .ok (n, [])
  | tc :: rest =>
    match tc.function.bind OllamaToolCallFunctionRaw.name with
    | none => .error ([], ⟨tc⟩)
    | some name =>
      match tc.function.bind OllamaToolCallFunctionRaw.arguments with
      | some args =>
        if args.length > 0 then
          let id := cfg.genId n
          let out := [ChatPart.toolCallDelta id name (stringifyArgs args),
            ChatPart.toolCall id name (stringifyArgs args)]
          match chatProcessToolCalls cfg (n + 1) rest with
          | .ok (n₂, o₂) => .ok (n₂, out ++ o₂)
          | .error (oE, e) => .error (out ++ oE, e)
        else chatProcessToolCalls cfg n rest
      | none => chatProcessToolCalls cfg n rest

/-- The recovery loop over the lines of a failed chunk: blank lines are
skipped; a line that evaluates enqueues a text-delta and a reasoning part
(with whatever values the parsed object carries, possibly undefined); the
first throwing line aborts the loop, keeping the events already enqueued;
the second component tells whether the loop completed. -/
def chatRecoverLines (cfg : ChatStreamConfig) :
    List (List Char) → List ChatPart × Bool
  | [] => ([], true)
  | line :: rest =>
    if jsTrim line = [] then chatRecoverLines cfg rest
    else
      match cfg.lineEval line with
      | some (c, t) =>
        let r := chatRecoverLines cfg rest
        (ChatPart.textDelta c :: ChatPart.reasoning t :: r.1, r.2)
      | none => ([], false)

/-- Response metadata of the chat transform (same `getResponseMetadata`). -/
def chatResponseMetadata (v : OllamaResponse) : ChatPart :=
  .responseMetadata (some v.model) (some v.created_at)

/-- One `transform` invocation of the chat model `doStream`: failed chunks
go through line recovery (falling back to the error path if the loop threw);
successful chunks emit first-chunk metadata, capture finish reason and
usage on `done`, then text, thinking, and tool calls. -/
def chatTransformChunk (cfg : ChatStreamConfig) (s : ChatState) :
    Chunk → Except (List ChatPart × InvalidResponseData) (ChatState × List ChatPart)
  | .failure raw =>
    let r := chatRecoverLines cfg (splitNlAll raw)
    if r.2 then .ok (s, r.1)
    else .ok ({ s with finishReason := .plain "error" },
      r.1 ++ [ChatPart.errorPart])
  | .success v =>
    let p₁ :=
      if s.isFirstChunk then
        ({ s with isFirstChunk := false }, [chatResponseMetadata v])
      else (s, [])
    let s₂ :=
      if v.done then
        { p₁.1 with
            finishReason := .mapped (mapOllamaFinishReason v.done_reason)
            promptTokens := some (v.prompt_eval_count.getD 0)
            completionTokens := v.eval_count }
      else p₁.1
    let o₃ : List ChatPart :=
      match v.message.toRaw.content with
      | some c => [.textDelta (some c)]
      | none => []
    let o₄ : List ChatPart :=
      match v.message.toRaw.thinking with
      | some t => if t = "" then [] else [.reasoning (some t)]
      | none => []
    match chatProcessToolCalls cfg s₂.nextId (v.message.toRaw.tool_calls.getD []) with
    | .ok (n', o₅) => .ok ({ s₂ with nextId := n' }, p₁.2 ++ o₃ ++ o₄ ++ o₅)
    | .error (oE, e) => .error (p₁.2 ++ o₃ ++ o₄ ++ oE, e)

/-- Fold of the chat transform over the chunk list. -/
def chatRunChunks (cfg : ChatStreamConfig) (s : ChatState) :
    List Chunk →
      Except (List ChatPart × InvalidResponseData) (ChatState × List ChatPart)
  | [] => .ok (s, [])
  | c :: cs =>
    match chatTransformChunk cfg s c with
    | .ok (s₁, o₁) =>
      match chatRunChunks cfg s₁ cs with
      | .ok (s₂, o₂) => .ok (s₂, o₁ ++ o₂)
      | .error (oE, e) => .error (o₁ ++ oE, e)
    | .error (oE, e) => .error (oE, e)

/-- The chat model `doStream` stream: the transforms in order, then the
`flush` callback emitting the single `finish` part (undefined usage counts
become `NaN` on the wire, modelled as `none`).  A thrown error errors the
stream and `flush` never runs. -/
def runChatStream (cfg : ChatStreamConfig) (chunks : List Chunk) :
    Except (List ChatPart × InvalidResponseData) (List ChatPart) :=
  match chatRunChunks cfg {} chunks with
  | .ok (sF, out) =>
    .ok (out ++ [.finish sF.finishReason sF.promptTokens sF.completionTokens])
  | .error (oE, e) => .error (oE, e)

/-- C6 (processor half, auxiliary): a null-name entry makes
`processToolCalls` throw, carrying exactly the events of the entries
before it and the offending entry as error data. -/
theorem processToolCalls_null_name (cfg : StreamProcessorConfig) :
    ∀ (pre : List OllamaToolCallRaw) (s : PState) (s₁ : PState)
      (o₁ : List StreamPart) (tc : OllamaToolCallRaw)
      (post : List OllamaToolCallRaw),
      processToolCalls cfg s pre = .ok (s₁, o₁) →
      tc.function.bind OllamaToolCallFunctionRaw.name = none →
      processToolCalls cfg s (pre ++ tc :: post) = .error (o₁, ⟨tc⟩) := by
  intro pre
  induction pre with
  | nil =>
    intro s s₁ o₁ tc post hpre hname
    obtain ⟨rfl, rfl⟩ : s₁ = s ∧ o₁ = [] := by
      simp only [processToolCalls] at hpre
      cases hpre
      exact ⟨rfl, rfl⟩
    rw [List.nil_append]
    simp only [processToolCalls, hname]
  | cons p pre ih =>
    intro s s₁ o₁ tc post hpre hname
    rcases hnm : p.function.bind OllamaToolCallFunctionRaw.name with _ | nm
    · simp only [processToolCalls, hnm] at hpre
      exact absurd hpre (by simp)
    · rcases hargs : p.function.bind OllamaToolCallFunctionRaw.arguments
        with _ | args
      · simp only [processToolCalls, hnm, hargs] at hpre
        rw [List.cons_append]
        simp only [processToolCalls, hnm, hargs]
        exact ih s s₁ o₁ tc post hpre hname
      · simp only [processToolCalls, hnm, hargs] at hpre
        rcases hrec : processToolCalls cfg (emitToolCall cfg s nm args p.id).1 pre
          with ⟨oE, e⟩ | ⟨s₂, o₂⟩ <;> rw [hrec] at hpre
        · exact absurd hpre (by simp)
        · obtain ⟨rfl, rfl⟩ : s₁ = s₂ ∧
              o₁ = (emitToolCall cfg s nm args p.id).2 ++ o₂ := by
            cases hpre
            exact ⟨rfl, rfl⟩
          rw [List.cons_append]
          simp only [processToolCalls, hnm, hargs]
          rw [ih _ _ _ tc post hrec hname]

/-- C6 (chat half, auxiliary): identical null-name behavior in the chat
model tool-call loop. -/
theorem chatProcessToolCalls_null_name (cfg : ChatStreamConfig) :
    ∀ (pre : List OllamaToolCallRaw) (n n₁ : Nat) (o₁ : List ChatPart)
      (tc : OllamaToolCallRaw) (post : List OllamaToolCallRaw),
      chatProcessToolCalls cfg n pre = .ok (n₁, o₁) →
      tc.function.bind OllamaToolCallFunctionRaw.name = none →
      chatProcessToolCalls cfg n (pre ++ tc :: post) = .error (o₁, ⟨tc⟩) := by
  intro pre
  induction pre with
  | nil =>
    intro n n₁ o₁ tc post hpre hname
    obtain ⟨rfl, rfl⟩ : n₁ = n ∧ o₁ = [] := by
      simp only [chatProcessToolCalls] at hpre
      cases hpre
      exact ⟨rfl, rfl⟩
    rw [List.nil_append]
    simp only [chatProcessToolCalls, hname]
  | cons p pre ih =>
    intro n n₁ o₁ tc post hpre hname
    rcases hnm : p.function.bind OllamaToolCallFunctionRaw.name with _ | nm
    · simp only [chatProcessToolCalls, hnm] at hpre
      exact absurd hpre (by simp)
    · rcases hargs : p.function.bind OllamaToolCallFunctionRaw.arguments
        with _ | args
      · simp only [chatProcessToolCalls, hnm, hargs] at hpre
        rw [List.cons_append]
        simp only [chatProcessToolCalls, hnm, hargs]
        exact ih n n₁ o₁ tc post hpre hname
      · by_cases hlen : args.length > 0
        · simp only [chatProcessToolCalls, hnm, hargs, if_pos hlen] at hpre
          rcases hrec : chatProcessToolCalls cfg (n + 1) pre
            with ⟨oE, e⟩ | ⟨n₂, o₂⟩ <;> rw [hrec] at hpre
          · exact absurd hpre (by simp)
          · obtain ⟨rfl, rfl⟩ : n₁ = n₂ ∧
                o₁ = [ChatPart.toolCallDelta (cfg.genId n) nm (stringifyArgs args),
                  ChatPart.toolCall (cfg.genId n) nm (stringifyArgs args)] ++ o₂ := by
              cases hpre
              exact ⟨rfl, rfl⟩
            rw [List.cons_append]
            simp only [chatProcessToolCalls, hnm, hargs, if_pos hlen]
            rw [ih _ _ _ tc post hrec hname]
        · simp only [chatProcessToolCalls, hnm, hargs, if_neg hlen] at hpre
          rw [List.cons_append]
          simp only [chatProcessToolCalls, hnm, hargs, if_neg hlen]
          exact ih n n₁ o₁ tc post hpre hname

/-- C6: in both decoders, a tool-call entry with a null function name makes
the tool-call loop raise `InvalidResponseDataError` synchronously with the
offending entry as error data, and the only events emitted are those of the
complete entries before it: no tool event of any kind is emitted for the
null-name entry itself (nor for anything after it). -/
theorem null_tool_name_raises :
    (∀ (cfg : StreamProcessorConfig) (s : PState) (pre : List OllamaToolCallRaw)
        (tc : OllamaToolCallRaw) (post : List OllamaToolCallRaw)
        (s₁ : PState) (o₁ : List StreamPart),
        processToolCalls cfg s pre = .ok (s₁, o₁) →
        tc.function.bind OllamaToolCallFunctionRaw.name = none →
        processToolCalls cfg s (pre ++ tc :: post) = .error (o₁, ⟨tc⟩)) ∧
    (∀ (cfg : ChatStreamConfig) (n : Nat) (pre : List OllamaToolCallRaw)
        (tc : OllamaToolCallRaw) (post : List OllamaToolCallRaw)
        (n₁ : Nat) (o₁ : List ChatPart),
        chatProcessToolCalls cfg n pre = .ok (n₁, o₁) →
        tc.function.bind OllamaToolCallFunctionRaw.name = none →
        chatProcessToolCalls cfg n (pre ++ tc :: post) = .error (o₁, ⟨tc⟩)) :=
  ⟨fun cfg s pre tc post s₁ o₁ h hn =>
      processToolCalls_null_name cfg pre s s₁ o₁ tc post h hn,
    fun cfg n pre tc post n₁ o₁ h hn =>
      chatProcessToolCalls_null_name cfg pre n n₁ o₁ tc post h hn⟩

/-- A raw tool-call entry whose function name is null. -/
def nullNameTcRaw : OllamaToolCallRaw :=
  { function := some { name := none }, id := none }

/-- A raw tool-call entry with a null name but present arguments. -/
def nullNameArgsTcRaw : OllamaToolCallRaw :=
  { function := some { name := none, arguments := some [("a", "1")] }, id := none }

/-- Closed instance of the null-name theorem: one complete entry followed
by a null-name entry, in both decoders. -/
theorem null_tool_name_raises_witness :
    processToolCalls burstCfg initializeState [burstTc.toRaw, nullNameTcRaw] =
      .error ((emitToolCall burstCfg initializeState "f" [("a", "1")] none).2,
        ⟨nullNameTcRaw⟩) ∧
    chatProcessToolCalls { genId := fun n => "g" ++ toString n } 0
        [nullNameArgsTcRaw] =
      .error ([], ⟨nullNameArgsTcRaw⟩) :=
  ⟨null_tool_name_raises.1 burstCfg initializeState [burstTc.toRaw]
      nullNameTcRaw [] _ _ (by rfl) rfl,
    null_tool_name_raises.2 { genId := fun n => "g" ++ toString n } 0 []
      nullNameArgsTcRaw [] 0 [] rfl rfl⟩

/-! ## Ordering predicates on emitted event sequences -/

/-- Every text-delta for the id is strictly preceded by a text-start. -/
def textDeltaAfterStart (id : String) (l : List StreamPart) : Prop :=
  ∀ (n : Nat) (d : String), l[n]? = some (StreamPart.textDelta id d) →
    ∃ m, m < n ∧ l[m]? = some (StreamPart.textStart id)

/-- Every reasoning-delta is strictly preceded by a reasoning-start. -/
def reasDeltaAfterStart (l : List StreamPart) : Prop :=
  ∀ (n : Nat) (d : String), l[n]? = some (StreamPart.reasoningDelta "0" d) →
    ∃ m, m < n ∧ l[m]? = some (StreamPart.reasoningStart "0")

/-- Every tool-input-delta lies strictly between a tool-input-start and a
tool-input-end of the same id. -/
def toolDeltaBetween (l : List StreamPart) : Prop :=
  ∀ (n : Nat) (id d : String), l[n]? = some (StreamPart.toolInputDelta id d) →
    (∃ m, m < n ∧ ∃ nm, l[m]? = some (StreamPart.toolInputStart id nm)) ∧
    (∃ k, n < k ∧ l[k]? = some (StreamPart.toolInputEnd id))

theorem textDeltaAfterStart_append {id : String} {l o : List StreamPart}
    (hl : textDeltaAfterStart id l)
    (ho : StreamPart.textStart id ∈ l ∨ textDeltaAfterStart id o) :
    textDeltaAfterStart id (l ++ o) := by
  intro n d hn
  by_cases hlt : n < l.length
  · rw [List.getElem?_append_left hlt] at hn
    obtain ⟨m, hm, hget⟩ := hl n d hn
    exact ⟨m, hm, by
      rw [List.getElem?_append_left (lt_trans hm hlt)]
      exact hget⟩
  · have hge : l.length ≤ n := le_of_not_lt hlt
    rw [List.getElem?_append_right hge] at hn
    rcases ho with hmem | ho'
    · obtain ⟨i, hi, hv⟩ := List.getElem_of_mem hmem
      refine ⟨i, lt_of_lt_of_le hi hge |>.trans_le (le_refl n) |>.trans_le (le_refl n), ?_⟩
      rw [List.getElem?_append_left hi, List.getElem?_eq_getElem hi, hv]
    · obtain ⟨m, hm, hget⟩ := ho' (n - l.length) d hn
      refine ⟨l.length + m, by omega, ?_⟩
      rw [List.getElem?_append_right (by omega)]
      simpa using hget

theorem reasDeltaAfterStart_append {l o : List StreamPart}
    (hl : reasDeltaAfterStart l)
    (ho : StreamPart.reasoningStart "0" ∈ l ∨ reasDeltaAfterStart o) :
    reasDeltaAfterStart (l ++ o) := by
  intro n d hn
  by_cases hlt : n < l.length
  · rw [List.getElem?_append_left hlt] at hn
    obtain ⟨m, hm, hget⟩ := hl n d hn
    exact ⟨m, hm, by
      rw [List.getElem?_append_left (lt_trans hm hlt)]
      exact hget⟩
  · have hge : l.length ≤ n := le_of_not_lt hlt
    rw [List.getElem?_append_right hge] at hn
    rcases ho with hmem | ho'
    · obtain ⟨i, hi, hv⟩ := List.getElem_of_mem hmem
      refine ⟨i, by omega, ?_⟩
      rw [List.getElem?_append_left hi, List.getElem?_eq_getElem hi, hv]
    · obtain ⟨m, hm, hget⟩ := ho' (n - l.length) d hn
      refine ⟨l.length + m, by omega, ?_⟩
      rw [List.getElem?_append_right (by omega)]
      simpa using hget

theorem toolDeltaBetween_append {l o : List StreamPart}
    (hl : toolDeltaBetween l) (ho : toolDeltaBetween o) :
    toolDeltaBetween (l ++ o) := by
  intro n id d hn
  by_cases hlt : n < l.length
  · rw [List.getElem?_append_left hlt] at hn
    obtain ⟨⟨m, hm, nm, hs⟩, ⟨k, hk, he⟩⟩ := hl n id d hn
    have hkl : k < l.length := by
      by_contra hkl
      rw [List.getElem?_eq_none (by omega)] at he
      exact Option.noConfusion he
    refine ⟨⟨m, hm, nm, ?_⟩, ⟨k, hk, ?_⟩⟩
    · rw [List.getElem?_append_left (lt_trans hm hlt)]
      exact hs
    · rw [List.getElem?_append_left hkl]
      exact he
  · have hge : l.length ≤ n := le_of_not_lt hlt
    rw [List.getElem?_append_right hge] at hn
    obtain ⟨⟨m, hm, nm, hs⟩, ⟨k, hk, he⟩⟩ := ho (n - l.length) id d hn
    refine ⟨⟨l.length + m, by omega, nm, ?_⟩, ⟨l.length + k, by omega, ?_⟩⟩
    · rw [List.getElem?_append_right (by omega)]
      simpa using hs
    · rw [List.getElem?_append_right (by omega)]
      simpa using he

theorem textDeltaAfterStart_of_no_delta {id : String} {o : List StreamPart}
    (h : ∀ e ∈ o, isTextDeltaFor id e = false) : textDeltaAfterStart id o := by
  intro n d hn
  have hmem : StreamPart.textDelta id d ∈ o := List.getElem?_mem hn
  have := h _ hmem
  simp [isTextDeltaFor] at this

theorem reasDeltaAfterStart_of_no_delta {o : List StreamPart}
    (h : ∀ e ∈ o, isReasDeltaFor "0" e = false) : reasDeltaAfterStart o := by
  intro n d hn
  have hmem : StreamPart.reasoningDelta "0" d ∈ o := List.getElem?_mem hn
  have := h _ hmem
  simp [isReasDeltaFor] at this

theorem toolDeltaBetween_of_no_delta {o : List StreamPart}
    (h : ∀ e ∈ o, isToolEvent e = false) : toolDeltaBetween o := by
  intro n id d hn
  have hmem : StreamPart.toolInputDelta id d ∈ o := List.getElem?_mem hn
  have := h _ hmem
  simp [isToolEvent] at this

theorem countIn_eq_zero_of_all_false {α : Type} {p : α → Bool} {l : List α}
    (h : ∀ e ∈ l, p e = false) : countIn p l = 0 := by
  induction l with
  | nil => rfl
  | cons e rest ih =>
    have he := h e (List.mem_cons_self e rest)
    simp [countIn, he, ih fun x hx => h x (List.mem_cons_of_mem e hx)]

theorem mem_of_countIn_pos {α : Type} {p : α → Bool} {l : List α}
    (h : 0 < countIn p l) : ∃ e ∈ l, p e = true := by
  induction l with
  | nil => simp [countIn] at h
  | cons e rest ih =>
    rcases hp : p e with _ | _
    · simp [countIn, hp] at h
      obtain ⟨x, hx, hpx⟩ := ih h
      exact ⟨x, List.mem_cons_of_mem e hx, hpx⟩
    · exact ⟨e, List.mem_cons_self e rest, hp⟩

theorem isTextStartFor_eq {id : String} {e : StreamPart}
    (h : isTextStartFor id e = true) : e = .textStart id := by
  cases e <;> simp [isTextStartFor] at h ⊢
  exact h

theorem isReasStartFor_eq {id : String} {e : StreamPart}
    (h : isReasStartFor id e = true) : e = .reasoningStart id := by
  cases e <;> simp [isReasStartFor] at h ⊢
  exact h

/-- Tool-event lists emitted by the tool-call loops: a concatenation of
four-event bursts. -/
inductive BurstList : List StreamPart → Prop
  | nil : BurstList []
  | cons (id name json : String) (rest : List StreamPart)
      (h : BurstList rest) :
      BurstList (.toolInputStart id name :: .toolInputDelta id json ::
        .toolInputEnd id :: .toolCall id name json :: rest)

theorem BurstList.tool_only {o : List StreamPart} (h : BurstList o) :
    ∀ e ∈ o, isToolEvent e = true := by
  induction h with
  | nil => intro e he; simp at he
  | cons id name json rest _ ih =>
    intro e he
    rcases he with _ | ⟨_, _ | ⟨_, _ | ⟨_, _ | ⟨_, hrest⟩⟩⟩⟩ <;>
      first
        | rfl
        | exact ih _ (by assumption)

theorem BurstList.counts {o : List StreamPart} (h : BurstList o) :
    ∀ id, countIn (isToolStartFor id) o = countIn (isToolEndFor id) o ∧
      countIn (isToolDeltaFor id) o = countIn (isToolEndFor id) o := by
  induction h with
  | nil => intro id; simp [countIn]
  | cons bid name json rest _ ih =>
    intro id
    obtain ⟨h1, h2⟩ := ih id
    simp [countIn, isToolStartFor, isToolDeltaFor, isToolEndFor, h1, h2]

theorem BurstList.deltaBetween {o : List StreamPart} (h : BurstList o) :
    toolDeltaBetween o := by
  induction h with
  | nil =>
    intro n id d hn
    simp at hn
  | cons bid name json rest _ ih =>
    intro n id d hn
    match n, hn with
    | 0, hn => exact absurd hn (by simp)
    | 2, hn => exact absurd hn (by simp)
    | 3, hn => exact absurd hn (by simp)
    | 1, hn =>
      obtain ⟨h1, h2⟩ : id = bid ∧ d = json := by
        simp at hn
        exact ⟨hn.1.symm, hn.2.symm⟩
      subst h1
      subst h2
      exact ⟨⟨0, by omega, name, by simp⟩, ⟨2, by omega, by simp⟩⟩
    | (m + 4), hn =>
      have hn' : rest[m]? = some (.toolInputDelta id d) := by
        simpa using hn
      obtain ⟨⟨j, hj, nm, hs⟩, ⟨k, hk, he⟩⟩ := ih m id d hn'
      exact ⟨⟨j + 4, by omega, nm, by simpa using hs⟩,
        ⟨k + 4, by omega, by simpa using he⟩⟩

/-! ## Decode invariant of the processor -/

/-- Events that touch no content channel and are not `finish`. -/
def isNeutralPart : StreamPart → Bool
  | .streamStart _ => true
  | .responseMetadata _ _ => true
  | .errorPart => true
  | .rawPart => true
  | _ => false

theorem neutral_pred_false {e : StreamPart} (h : isNeutralPart e = true) :
    ∀ i : String, isTextStartFor i e = false ∧ isTextDeltaFor i e = false ∧
      isTextEndFor i e = false ∧ isReasStartFor i e = false ∧
      isReasDeltaFor i e = false ∧ isReasEndFor i e = false ∧
      isToolStartFor i e = false ∧ isToolDeltaFor i e = false ∧
      isToolEndFor i e = false ∧ isToolEvent e = false ∧
      isFinishPart e = false := by
  intro i
  cases e <;> simp_all [isNeutralPart, isTextStartFor, isTextDeltaFor,
    isTextEndFor, isReasStartFor, isReasDeltaFor, isReasEndFor,
    isToolStartFor, isToolDeltaFor, isToolEndFor, isToolEvent, isFinishPart]

theorem toolEvent_pred_false {e : StreamPart} (h : isToolEvent e = true) :
    ∀ i : String, isTextStartFor i e = false ∧ isTextDeltaFor i e = false ∧
      isTextEndFor i e = false ∧ isReasStartFor i e = false ∧
      isReasDeltaFor i e = false ∧ isReasEndFor i e = false ∧
      isFinishPart e = false := by
  intro i
  cases e <;> simp_all [isToolEvent, isTextStartFor, isTextDeltaFor,
    isTextEndFor, isReasStartFor, isReasDeltaFor, isReasEndFor, isFinishPart]

/-- The per-decode invariant relating the processor state to the events
emitted so far: channel start and end counts match the state flags, flag
implications hold, tool bursts stay balanced, deltas sit after their
channel start (and for tool channels before the matching end), and no
`finish` has been emitted. -/
structure DecodeInv (cfg : StreamProcessorConfig) (s : PState)
    (l : List StreamPart) : Prop where
  ts : countIn (isTextStartFor cfg.textId) l =
    (if s.hasTextStarted then 1 else 0)
  te : countIn (isTextEndFor cfg.textId) l = (if s.textEnded then 1 else 0)
  tse : s.textEnded = true → s.hasTextStarted = true
  rs : countIn (isReasStartFor "0") l =
    (if s.hasReasoningStarted then 1 else 0)
  re : countIn (isReasEndFor "0") l = (if s.reasoningEnded then 1 else 0)
  rse : s.reasoningEnded = true → s.hasReasoningStarted = true
  tool : ∀ id, countIn (isToolStartFor id) l = countIn (isToolEndFor id) l ∧
    countIn (isToolDeltaFor id) l = countIn (isToolEndFor id) l
  tOrd : textDeltaAfterStart cfg.textId l
  rOrd : reasDeltaAfterStart l
  dOrd : toolDeltaBetween l
  fin : countIn isFinishPart l = 0

theorem DecodeInv.textStart_mem {cfg : StreamProcessorConfig} {s : PState}
    {l : List StreamPart} (h : DecodeInv cfg s l)
    (hs : s.hasTextStarted = true) : StreamPart.textStart cfg.textId ∈ l := by
  have hc := h.ts
  rw [hs, if_pos rfl] at hc
  obtain ⟨e, he, hp⟩ := mem_of_countIn_pos
    (show 0 < countIn (isTextStartFor cfg.textId) l by omega)
  rw [isTextStartFor_eq hp] at he
  exact he

theorem DecodeInv.reasStart_mem {cfg : StreamProcessorConfig} {s : PState}
    {l : List StreamPart} (h : DecodeInv cfg s l)
    (hs : s.hasReasoningStarted = true) : StreamPart.reasoningStart "0" ∈ l := by
  have hc := h.rs
  rw [hs, if_pos rfl] at hc
  obtain ⟨e, he, hp⟩ := mem_of_countIn_pos
    (show 0 < countIn (isReasStartFor "0") l by omega)
  rw [isReasStartFor_eq hp] at he
  exact he

/-- The invariant only reads the four channel flags of the state. -/
theorem DecodeInv.retarget {cfg : StreamProcessorConfig} {s : PState}
    {l : List StreamPart} (h : DecodeInv cfg s l) (s' : PState)
    (h1 : s'.hasTextStarted = s.hasTextStarted)
    (h2 : s'.textEnded = s.textEnded)
    (h3 : s'.hasReasoningStarted = s.hasReasoningStarted)
    (h4 : s'.reasoningEnded = s.reasoningEnded) : DecodeInv cfg s' l := by
  refine ⟨?_, ?_, ?_, ?_, ?_, ?_, h.tool, h.tOrd, h.rOrd, h.dOrd, h.fin⟩
  · rw [h1]; exact h.ts
  · rw [h2]; exact h.te
  · rw [h2, h1]; exact h.tse
  · rw [h3]; exact h.rs
  · rw [h4]; exact h.re
  · rw [h4, h3]; exact h.rse

theorem DecodeInv.append_neutral {cfg : StreamProcessorConfig} {s : PState}
    {l o : List StreamPart} (h : DecodeInv cfg s l)
    (ho : ∀ e ∈ o, isNeutralPart e = true) : DecodeInv cfg s (l ++ o) := by
  have hz : ∀ p : StreamPart → Bool, (∀ e ∈ o, p e = false) →
      ∀ q : List StreamPart → Nat, True := fun _ _ _ => trivial
  have hts := countIn_eq_zero_of_all_false
    (fun e he => ((neutral_pred_false (ho e he)) cfg.textId).1)
  have htd := countIn_eq_zero_of_all_false
    (fun e he => ((neutral_pred_false (ho e he)) cfg.textId).2.1)
  have hte := countIn_eq_zero_of_all_false
    (fun e he => ((neutral_pred_false (ho e he)) cfg.textId).2.2.1)
  have hrs := countIn_eq_zero_of_all_false
    (fun e he => ((neutral_pred_false (ho e he)) "0").2.2.2.1)
  have hrd := countIn_eq_zero_of_all_false
    (fun e he => ((neutral_pred_false (ho e he)) "0").2.2.2.2.1)
  have hre := countIn_eq_zero_of_all_false
    (fun e he => ((neutral_pred_false (ho e he)) "0").2.2.2.2.2.1)
  have hfin := countIn_eq_zero_of_all_false
    (fun e he => ((neutral_pred_false (ho e he)) "0").2.2.2.2.2.2.2.2.2.2)
  refine ⟨?_, ?_, h.tse, ?_, ?_, h.rse, ?_, ?_, ?_, ?_, ?_⟩
  · rw [countIn_append, hts, Nat.add_zero]; exact h.ts
  · rw [countIn_append, hte, Nat.add_zero]; exact h.te
  · rw [countIn_append, hrs, Nat.add_zero]; exact h.rs
  · rw [countIn_append, hre, Nat.add_zero]; exact h.re
  · intro id
    have h1 := countIn_eq_zero_of_all_false
      (fun e he => ((neutral_pred_false (ho e he)) id).2.2.2.2.2.2.1)
    have h2 := countIn_eq_zero_of_all_false
      (fun e he => ((neutral_pred_false (ho e he)) id).2.2.2.2.2.2.2.1)
    have h3 := countIn_eq_zero_of_all_false
      (fun e he => ((neutral_pred_false (ho e he)) id).2.2.2.2.2.2.2.2.1)
    rw [countIn_append, countIn_append, countIn_append, h1, h2, h3]
    simpa using h.tool id
  · exact textDeltaAfterStart_append h.tOrd (Or.inr
      (textDeltaAfterStart_of_no_delta
        (fun e he => ((neutral_pred_false (ho e he)) cfg.textId).2.1)))
  · exact reasDeltaAfterStart_append h.rOrd (Or.inr
      (reasDeltaAfterStart_of_no_delta
        (fun e he => ((neutral_pred_false (ho e he)) "0").2.2.2.2.1)))
  · exact toolDeltaBetween_append h.dOrd
      (toolDeltaBetween_of_no_delta
        (fun e he => ((neutral_pred_false (ho e he)) "0").2.2.2.2.2.2.2.2.2.1))
  · rw [countIn_append, hfin, Nat.add_zero]; exact h.fin

theorem textDeltaAfterStart_pair (id c : String) :
    textDeltaAfterStart id [.textStart id, .textDelta id c] := by
  intro n d hn
  match n, hn with
  | 0, hn => exact absurd hn (by simp)
  | 1, hn => exact ⟨0, by omega, by simp⟩
  | (k + 2), hn => exact absurd hn (by simp)

theorem reasDeltaAfterStart_pair (c : String) :
    reasDeltaAfterStart [.reasoningStart "0", .reasoningDelta "0" c] := by
  intro n d hn
  match n, hn with
  | 0, hn => exact absurd hn (by simp)
  | 1, hn => exact ⟨0, by omega, by simp⟩
  | (k + 2), hn => exact absurd hn (by simp)

theorem inv_processTextContent {cfg : StreamProcessorConfig} {s : PState}
    {l : List StreamPart} (h : DecodeInv cfg s l) (m : OllamaMessageRaw) :
    DecodeInv cfg (processTextContent cfg s m).1
      (l ++ (processTextContent cfg s m).2) := by
  unfold processTextContent
  rcases hc : m.content with _ | c
  · simpa using h
  · rcases hs : s.hasTextStarted
    · simp only [hs, Bool.false_eq_true, if_false]
      refine ⟨?_, ?_, ?_, ?_, ?_, ?_, ?_, ?_, ?_, ?_, ?_⟩
      · have := h.ts
        rw [hs, if_neg (by simp)] at this
        simp [countIn_append, countIn, isTextStartFor, this]
      · have := h.te
        simp [countIn_append, countIn, isTextEndFor, this]
      · intro hte
        exact absurd (h.tse hte) (by simp [hs])
      · have := h.rs
        simp [countIn_append, countIn, isReasStartFor, this]
      · have := h.re
        simp [countIn_append, countIn, isReasEndFor, this]
      · exact h.rse
      · intro id
        have := h.tool id
        simp [countIn_append, countIn, isToolStartFor, isToolDeltaFor,
          isToolEndFor, this.1, this.2]
      · exact textDeltaAfterStart_append h.tOrd
          (Or.inr (textDeltaAfterStart_pair cfg.textId c))
      · exact reasDeltaAfterStart_append h.rOrd
          (Or.inr (reasDeltaAfterStart_of_no_delta (by
            intro e he
            simp at he
            rcases he with h1 | h1 <;> subst h1 <;> rfl)))
      · exact toolDeltaBetween_append h.dOrd
          (toolDeltaBetween_of_no_delta (by
            intro e he
            simp at he
            rcases he with h1 | h1 <;> subst h1 <;> rfl))
      · have := h.fin
        simp [countIn_append, countIn, isFinishPart, this]
    · simp only [hs, if_true]
      refine ⟨?_, ?_, ?_, ?_, ?_, ?_, ?_, ?_, ?_, ?_, ?_⟩
      · have := h.ts
        simp [countIn_append, countIn, isTextStartFor, this]
      · have := h.te
        simp [countIn_append, countIn, isTextEndFor, this]
      · exact h.tse
      · have := h.rs
        simp [countIn_append, countIn, isReasStartFor, this]
      · have := h.re
        simp [countIn_append, countIn, isReasEndFor, this]
      · exact h.rse
      · intro id
        have := h.tool id
        simp [countIn_append, countIn, isToolStartFor, isToolDeltaFor,
          isToolEndFor, this.1, this.2]
      · exact textDeltaAfterStart_append h.tOrd
          (Or.inl (h.textStart_mem hs))
      · exact reasDeltaAfterStart_append h.rOrd
          (Or.inr (reasDeltaAfterStart_of_no_delta (by
            intro e he
            simp at he
            subst he
            rfl)))
      · exact toolDeltaBetween_append h.dOrd
          (toolDeltaBetween_of_no_delta (by
            intro e he
            simp at he
            subst he
            rfl))
      · have := h.fin
        simp [countIn_append, countIn, isFinishPart, this]

theorem inv_processThinking {cfg : StreamProcessorConfig} {s : PState}
    {l : List StreamPart} (h : DecodeInv cfg s l) (m : OllamaMessageRaw) :
    DecodeInv cfg (processThinking s m).1 (l ++ (processThinking s m).2) := by
  unfold processThinking
  rcases hc : m.thinking with _ | t
  · simpa using h
  · by_cases ht : t = ""
    · simp only [ht, if_true]
      simpa using h
    · simp only [if_neg ht]
      rcases hs : s.hasReasoningStarted
      · simp only [hs, Bool.false_eq_true, if_false]
        refine ⟨?_, ?_, h.tse, ?_, ?_, ?_, ?_, ?_, ?_, ?_, ?_⟩
        · have := h.ts
          simp [countIn_append, countIn, isTextStartFor, this]
        · have := h.te
          simp [countIn_append, countIn, isTextEndFor, this]
        · have := h.rs
          rw [hs, if_neg (by simp)] at this
          simp [countIn_append, countIn, isReasStartFor, this]
        · have := h.re
          simp [countIn_append, countIn, isReasEndFor, this]
        · intro hre
          exact absurd (h.rse hre) (by simp [hs])
        · intro id
          have := h.tool id
          simp [countIn_append, countIn, isToolStartFor, isToolDeltaFor,
            isToolEndFor, this.1, this.2]
        · exact textDeltaAfterStart_append h.tOrd
            (Or.inr (textDeltaAfterStart_of_no_delta (by
              intro e he
              simp at he
              rcases he with h1 | h1 <;> subst h1 <;> rfl)))
        · exact reasDeltaAfterStart_append h.rOrd
            (Or.inr (reasDeltaAfterStart_pair t))
        · exact toolDeltaBetween_append h.dOrd
            (toolDeltaBetween_of_no_delta (by
              intro e he
              simp at he
              rcases he with h1 | h1 <;> subst h1 <;> rfl))
        · have := h.fin
          simp [countIn_append, countIn, isFinishPart, this]
      · simp only [hs, if_true]
        refine ⟨?_, ?_, h.tse, ?_, ?_, h.rse, ?_, ?_, ?_, ?_, ?_⟩
        · have := h.ts
          simp [countIn_append, countIn, isTextStartFor, this]
        · have := h.te
          simp [countIn_append, countIn, isTextEndFor, this]
        · have := h.rs
          simp [countIn_append, countIn, isReasStartFor, this]
        · have := h.re
          simp [countIn_append, countIn, isReasEndFor, this]
        · intro id
          have := h.tool id
          simp [countIn_append, countIn, isToolStartFor, isToolDeltaFor,
            isToolEndFor, this.1, this.2]
        · exact textDeltaAfterStart_append h.tOrd
            (Or.inr (textDeltaAfterStart_of_no_delta (by
              intro e he
              simp at he
              subst he
              rfl)))
        · exact reasDeltaAfterStart_append h.rOrd
            (Or.inl (h.reasStart_mem hs))
        · exact toolDeltaBetween_append h.dOrd
            (toolDeltaBetween_of_no_delta (by
              intro e he
              simp at he
              subst he
              rfl))
        · have := h.fin
          simp [countIn_append, countIn, isFinishPart, this]

theorem inv_append_textEnd {cfg : StreamProcessorConfig} {s : PState}
    {l : List StreamPart} (h : DecodeInv cfg s l)
    (hts : s.hasTextStarted = true) (hte : s.textEnded = false)
    {s' : PState} (f1 : s'.hasTextStarted = s.hasTextStarted)
    (f2 : s'.textEnded = true)
    (f3 : s'.hasReasoningStarted = s.hasReasoningStarted)
    (f4 : s'.reasoningEnded = s.reasoningEnded) :
    DecodeInv cfg s' (l ++ [StreamPart.textEnd cfg.textId]) := by
  refine ⟨?_, ?_, ?_, ?_, ?_, ?_, ?_, ?_, ?_, ?_, ?_⟩
  · rw [f1]
    have := h.ts
    simp [countIn_append, countIn, isTextStartFor, this]
  · rw [f2]
    have := h.te
    rw [hte, if_neg (by simp)] at this
    simp [countIn_append, countIn, isTextEndFor, this]
  · intro _
    rw [f1]
    exact hts
  · rw [f3]
    have := h.rs
    simp [countIn_append, countIn, isReasStartFor, this]
  · rw [f4]
    have := h.re
    simp [countIn_append, countIn, isReasEndFor, this]
  · rw [f4, f3]
    exact h.rse
  · intro id
    have := h.tool id
    simp [countIn_append, countIn, isToolStartFor, isToolDeltaFor,
      isToolEndFor, this.1, this.2]
  · exact textDeltaAfterStart_append h.tOrd
      (Or.inr (textDeltaAfterStart_of_no_delta (by
        intro e he
        simp at he
        subst he
        rfl)))
  · exact reasDeltaAfterStart_append h.rOrd
      (Or.inr (reasDeltaAfterStart_of_no_delta (by
        intro e he
        simp at he
        subst he
        rfl)))
  · exact toolDeltaBetween_append h.dOrd
      (toolDeltaBetween_of_no_delta (by
        intro e he
        simp at he
        subst he
        rfl))
  · have := h.fin
    simp [countIn_append, countIn, isFinishPart, this]

theorem inv_append_reasEnd {cfg : StreamProcessorConfig} {s : PState}
    {l : List StreamPart} (h : DecodeInv cfg s l)
    (hrs : s.hasReasoningStarted = true) (hre : s.reasoningEnded = false)
    {s' : PState} (f1 : s'.hasTextStarted = s.hasTextStarted)
    (f2 : s'.textEnded = s.textEnded)
    (f3 : s'.hasReasoningStarted = s.hasReasoningStarted)
    (f4 : s'.reasoningEnded = true) :
    DecodeInv cfg s' (l ++ [StreamPart.reasoningEnd "0"]) := by
  refine ⟨?_, ?_, ?_, ?_, ?_, ?_, ?_, ?_, ?_, ?_, ?_⟩
  · rw [f1]
    have := h.ts
    simp [countIn_append, countIn, isTextStartFor, this]
  · rw [f2]
    have := h.te
    simp [countIn_append, countIn, isTextEndFor, this]
  · rw [f2, f1]
    exact h.tse
  · rw [f3]
    have := h.rs
    simp [countIn_append, countIn, isReasStartFor, this]
  · rw [f4]
    have := h.re
    rw [hre, if_neg (by simp)] at this
    simp [countIn_append, countIn, isReasEndFor, this]
  · intro _
    rw [f3]
    exact hrs
  · intro id
    have := h.tool id
    simp [countIn_append, countIn, isToolStartFor, isToolDeltaFor,
      isToolEndFor, this.1, this.2]
  · exact textDeltaAfterStart_append h.tOrd
      (Or.inr (textDeltaAfterStart_of_no_delta (by
        intro e he
        simp at he
        subst he
        rfl)))
  · exact reasDeltaAfterStart_append h.rOrd
      (Or.inr (reasDeltaAfterStart_of_no_delta (by
        intro e he
        simp at he
        subst he
        rfl)))
  · exact toolDeltaBetween_append h.dOrd
      (toolDeltaBetween_of_no_delta (by
        intro e he
        simp at he
        subst he
        rfl))
  · have := h.fin
    simp [countIn_append, countIn, isFinishPart, this]

theorem inv_handleDoneChunk {cfg : StreamProcessorConfig} {s : PState}
    {l : List StreamPart} (h : DecodeInv cfg s l) (v : OllamaResponse) :
    DecodeInv cfg (handleDoneChunk cfg s v).1
      (l ++ (handleDoneChunk cfg s v).2) := by
  have h₀ : DecodeInv cfg
      { s with
        finishReason := .mapped (mapOllamaFinishReason v.done_reason)
        usage :=
          { inputTokens := some (v.prompt_eval_count.getD 0)
            outputTokens := v.eval_count
            totalTokens := some (v.prompt_eval_count.getD 0 + v.eval_count.getD 0) } }
      l := h.retarget _ rfl rfl rfl rfl
  rcases hA : s.hasTextStarted && !s.textEnded
  · rcases hB : s.hasReasoningStarted && !s.reasoningEnded
    · have heq : handleDoneChunk cfg s v =
          ({ s with
              finishReason := .mapped (mapOllamaFinishReason v.done_reason)
              usage :=
                { inputTokens := some (v.prompt_eval_count.getD 0)
                  outputTokens := v.eval_count
                  totalTokens := some (v.prompt_eval_count.getD 0 + v.eval_count.getD 0) } },
            []) := by
        unfold handleDoneChunk
        simp [hA, hB]
      rw [heq]
      simpa using h₀
    · have hrs : s.hasReasoningStarted = true := by
        rcases hx : s.hasReasoningStarted <;> simp [hx] at hB ⊢
      have hre : s.reasoningEnded = false := by
        rcases hx : s.reasoningEnded <;> rcases hy : s.hasReasoningStarted <;>
          simp [hx, hy] at hB ⊢
      have heq : handleDoneChunk cfg s v =
          ({ s with
              finishReason := .mapped (mapOllamaFinishReason v.done_reason)
              usage :=
                { inputTokens := some (v.prompt_eval_count.getD 0)
                  outputTokens := v.eval_count
                  totalTokens := some (v.prompt_eval_count.getD 0 + v.eval_count.getD 0) }
              reasoningEnded := true },
            [StreamPart.reasoningEnd "0"]) := by
        unfold handleDoneChunk
        simp [hA, hB]
      rw [heq]
      exact inv_append_reasEnd h₀ hrs hre rfl rfl rfl rfl
  · have hts : s.hasTextStarted = true := by
      rcases hx : s.hasTextStarted <;> simp [hx] at hA ⊢
    have hte : s.textEnded = false := by
      rcases hx : s.textEnded <;> rcases hy : s.hasTextStarted <;>
        simp [hx, hy] at hA ⊢
    have h₁ : DecodeInv cfg
        { s with
          finishReason := .mapped (mapOllamaFinishReason v.done_reason)
          usage :=
            { inputTokens := some (v.prompt_eval_count.getD 0)
              outputTokens := v.eval_count
              totalTokens := some (v.prompt_eval_count.getD 0 + v.eval_count.getD 0) }
          textEnded := true }
        (l ++ [StreamPart.textEnd cfg.textId]) :=
      inv_append_textEnd h₀ hts hte rfl rfl rfl rfl
    rcases hB : s.hasReasoningStarted && !s.reasoningEnded
    · have heq : handleDoneChunk cfg s v =
          ({ s with
              finishReason := .mapped (mapOllamaFinishReason v.done_reason)
              usage :=
                { inputTokens := some (v.prompt_eval_count.getD 0)
                  outputTokens := v.eval_count
                  totalTokens := some (v.prompt_eval_count.getD 0 + v.eval_count.getD 0) }
              textEnded := true },
            [StreamPart.textEnd cfg.textId]) := by
        unfold handleDoneChunk
        simp [hA, hB]
      rw [heq]
      exact h₁
    · have hrs : s.hasReasoningStarted = true := by
        rcases hx : s.hasReasoningStarted <;> simp [hx] at hB ⊢
      have hre : s.reasoningEnded = false := by
        rcases hx : s.reasoningEnded <;> rcases hy : s.hasReasoningStarted <;>
          simp [hx, hy] at hB ⊢
      have heq : handleDoneChunk cfg s v =
          ({ s with
              finishReason := .mapped (mapOllamaFinishReason v.done_reason)
              usage :=
                { inputTokens := some (v.prompt_eval_count.getD 0)
                  outputTokens := v.eval_count
                  totalTokens := some (v.prompt_eval_count.getD 0 + v.eval_count.getD 0) }
              textEnded := true
              reasoningEnded := true },
            [StreamPart.textEnd cfg.textId] ++ [StreamPart.reasoningEnd "0"]) := by
        unfold handleDoneChunk
        simp [hA, hB]
      rw [heq]
      have h₂ := @inv_append_reasEnd cfg _ _ h₁ hrs hre
        { s with
          finishReason := .mapped (mapOllamaFinishReason v.done_reason)
          usage :=
            { inputTokens := some (v.prompt_eval_count.getD 0)
              outputTokens := v.eval_count
              totalTokens := some (v.prompt_eval_count.getD 0 + v.eval_count.getD 0) }
          textEnded := true
          reasoningEnded := true }
        rfl rfl rfl rfl
      rw [List.append_assoc] at h₂
      exact h₂

theorem processToolCalls_ok_profile (cfg : StreamProcessorConfig) :
    ∀ (tcs : List OllamaToolCallRaw) (s s' : PState) (o : List StreamPart),
      processToolCalls cfg s tcs = .ok (s', o) →
      BurstList o ∧ s'.hasTextStarted = s.hasTextStarted ∧
        s'.textEnded = s.textEnded ∧
        s'.hasReasoningStarted = s.hasReasoningStarted ∧
        s'.reasoningEnded = s.reasoningEnded := by
  intro tcs
  induction tcs with
  | nil =>
    intro s s' o hok
    obtain ⟨rfl, rfl⟩ : s' = s ∧ o = [] := by
      simp only [processToolCalls] at hok
      cases hok
      exact ⟨rfl, rfl⟩
    exact ⟨BurstList.nil, rfl, rfl, rfl, rfl⟩
  | cons p rest ih =>
    intro s s' o hok
    rcases hnm : p.function.bind OllamaToolCallFunctionRaw.name with _ | nm
    · simp only [processToolCalls, hnm] at hok
      exact absurd hok (by simp)
    · rcases hargs : p.function.bind OllamaToolCallFunctionRaw.arguments
        with _ | args
      · simp only [processToolCalls, hnm, hargs] at hok
        exact ih s s' o hok
      · simp only [processToolCalls, hnm, hargs] at hok
        rcases hrec : processToolCalls cfg (emitToolCall cfg s nm args p.id).1 rest
          with ⟨oE, e⟩ | ⟨s₂, o₂⟩ <;> rw [hrec] at hok
        · exact absurd hok (by simp)
        · obtain ⟨rfl, rfl⟩ : s' = s₂ ∧
              o = (emitToolCall cfg s nm args p.id).2 ++ o₂ := by
            cases hok
            exact ⟨rfl, rfl⟩
          obtain ⟨hb, f1, f2, f3, f4⟩ := ih _ _ _ hrec
          exact ⟨BurstList.cons _ nm (stringifyArgs args) _ hb,
            by rw [f1]; rfl, by rw [f2]; rfl, by rw [f3]; rfl,
            by rw [f4]; rfl⟩

theorem inv_processToolCalls {cfg : StreamProcessorConfig} {s : PState}
    {l : List StreamPart} (h : DecodeInv cfg s l)
    {tcs : List OllamaToolCallRaw} {s' : PState} {o : List StreamPart}
    (hok : processToolCalls cfg s tcs = .ok (s', o)) :
    DecodeInv cfg s' (l ++ o) := by
  obtain ⟨hb, f1, f2, f3, f4⟩ := processToolCalls_ok_profile cfg tcs s s' o hok
  have htool := hb.tool_only
  refine ⟨?_, ?_, ?_, ?_, ?_, ?_, ?_, ?_, ?_, ?_, ?_⟩
  · rw [f1, countIn_append, countIn_eq_zero_of_all_false
      (fun e he => ((toolEvent_pred_false (htool e he)) cfg.textId).1),
      Nat.add_zero]
    exact h.ts
  · rw [f2, countIn_append, countIn_eq_zero_of_all_false
      (fun e he => ((toolEvent_pred_false (htool e he)) cfg.textId).2.2.1),
      Nat.add_zero]
    exact h.te
  · rw [f2, f1]
    exact h.tse
  · rw [f3, countIn_append, countIn_eq_zero_of_all_false
      (fun e he => ((toolEvent_pred_false (htool e he)) "0").2.2.2.1),
      Nat.add_zero]
    exact h.rs
  · rw [f4, countIn_append, countIn_eq_zero_of_all_false
      (fun e he => ((toolEvent_pred_false (htool e he)) "0").2.2.2.2.2.1),
      Nat.add_zero]
    exact h.re
  · rw [f4, f3]
    exact h.rse
  · intro id
    have hc := hb.counts id
    have ht := h.tool id
    constructor
    · rw [countIn_append, countIn_append, ht.1, hc.1]
    · rw [countIn_append, countIn_append, ht.2, hc.2]
  · exact textDeltaAfterStart_append h.tOrd
      (Or.inr (textDeltaAfterStart_of_no_delta
        (fun e he => ((toolEvent_pred_false (htool e he)) cfg.textId).2.1)))
  · exact reasDeltaAfterStart_append h.rOrd
      (Or.inr (reasDeltaAfterStart_of_no_delta
        (fun e he => ((toolEvent_pred_false (htool e he)) "0").2.2.2.2.1)))
  · exact toolDeltaBetween_append h.dOrd hb.deltaBetween
  · rw [countIn_append, countIn_eq_zero_of_all_false
      (fun e he => ((toolEvent_pred_false (htool e he)) "0").2.2.2.2.2.2),
      Nat.add_zero]
    exact h.fin

theorem inv_processDelta {cfg : StreamProcessorConfig} {s : PState}
    {l : List StreamPart} (h : DecodeInv cfg s l) {m : OllamaMessageRaw}
    {s' : PState} {o : List StreamPart}
    (hok : processDelta cfg s m = .ok (s', o)) : DecodeInv cfg s' (l ++ o) := by
  have heq : processDelta cfg s m =
      (match processToolCalls cfg
          (processThinking (processTextContent cfg s m).1 m).1
          (m.tool_calls.getD []) with
        | .ok (s₃, o₃) =>
          .ok (s₃, (processTextContent cfg s m).2 ++
            (processThinking (processTextContent cfg s m).1 m).2 ++ o₃)
        | .error (oE, e) =>
          .error ((processTextContent cfg s m).2 ++
            (processThinking (processTextContent cfg s m).1 m).2 ++ oE, e)) := rfl
  rw [heq] at hok
  rcases hrec : processToolCalls cfg
      (processThinking (processTextContent cfg s m).1 m).1
      (m.tool_calls.getD []) with ⟨oE, e⟩ | ⟨s₃, o₃⟩ <;> rw [hrec] at hok
  · exact absurd hok (by simp)
  · obtain ⟨rfl, rfl⟩ : s' = s₃ ∧
        o = (processTextContent cfg s m).2 ++
          (processThinking (processTextContent cfg s m).1 m).2 ++ o₃ := by
      cases hok
      exact ⟨rfl, rfl⟩
    have h1 := inv_processTextContent h m
    have h2 := inv_processThinking h1 m
    have h3 := inv_processToolCalls h2 hrec
    rw [show l ++ ((processTextContent cfg s m).2 ++
        (processThinking (processTextContent cfg s m).1 m).2 ++ o₃) =
        ((l ++ (processTextContent cfg s m).2) ++
          (processThinking (processTextContent cfg s m).1 m).2) ++ o₃ from by
      simp [List.append_assoc]]
    exact h3

theorem inv_processResponseValue {cfg : StreamProcessorConfig} {s : PState}
    {l : List StreamPart} (h : DecodeInv cfg s l) {v : OllamaResponse}
    {s' : PState} {o : List StreamPart}
    (hok : processResponseValue cfg s v = .ok (s', o)) :
    DecodeInv cfg s' (l ++ o) := by
  have heq : processResponseValue cfg s v =
      (match processDelta cfg
          (if v.done then handleDoneChunk cfg
            (if s.isFirstChunk then
              ({ s with isFirstChunk := false }, [getResponseMetadata v])
            else (s, [])).1 v
          else ((if s.isFirstChunk then
              ({ s with isFirstChunk := false }, [getResponseMetadata v])
            else (s, [])).1, [])).1 v.message.toRaw with
        | .ok (s₃, o₃) =>
          .ok (s₃, (if s.isFirstChunk then
              ({ s with isFirstChunk := false }, [getResponseMetadata v])
            else (s, [])).2 ++
            (if v.done then handleDoneChunk cfg
              (if s.isFirstChunk then
                ({ s with isFirstChunk := false }, [getResponseMetadata v])
              else (s, [])).1 v
            else ((if s.isFirstChunk then
                ({ s with isFirstChunk := false }, [getResponseMetadata v])
              else (s, [])).1, [])).2 ++ o₃)
        | .error (oE, e) =>
          .error ((if s.isFirstChunk then
              ({ s with isFirstChunk := false }, [getResponseMetadata v])
            else (s, [])).2 ++
            (if v.done then handleDoneChunk cfg
              (if s.isFirstChunk then
                ({ s with isFirstChunk := false }, [getResponseMetadata v])
              else (s, [])).1 v
            else ((if s.isFirstChunk then
                ({ s with isFirstChunk := false }, [getResponseMetadata v])
              else (s, [])).1, [])).2 ++ oE, e)) := rfl
  have h₁ :
      DecodeInv cfg
        (if s.isFirstChunk then
          ({ s with isFirstChunk := false }, [getResponseMetadata v])
        else (s, [])).1
        (l ++ (if s.isFirstChunk then
          ({ s with isFirstChunk := false }, [getResponseMetadata v])
        else (s, [])).2) := by
    by_cases hf : s.isFirstChunk = true
    · rw [if_pos hf]
      have hne : ∀ e ∈ [getResponseMetadata v], isNeutralPart e = true := by
        intro e he
        simp at he
        subst he
        rfl
      exact (h.retarget { s with isFirstChunk := false } rfl rfl rfl rfl).append_neutral hne
    · rw [if_neg hf]
      exact h.append_neutral (by
        intro e he
        exact absurd (show e ∈ ([] : List StreamPart) from he)
          (List.not_mem_nil e))
  rw [heq] at hok
  generalize hP1 : (if s.isFirstChunk then
      ({ s with isFirstChunk := false }, [getResponseMetadata v])
    else (s, [])) = P₁ at hok h₁
  have h₂ :
      DecodeInv cfg
        (if v.done then handleDoneChunk cfg P₁.1 v else (P₁.1, [])).1
        ((l ++ P₁.2) ++
          (if v.done then handleDoneChunk cfg P₁.1 v else (P₁.1, [])).2) := by
    by_cases hd : v.done = true
    · rw [if_pos hd]
      exact inv_handleDoneChunk h₁ v
    · rw [if_neg hd]
      exact h₁.append_neutral (by
        intro e he
        exact absurd (show e ∈ ([] : List StreamPart) from he)
          (List.not_mem_nil e))
  generalize hP2 : (if v.done then handleDoneChunk cfg P₁.1 v
    else (P₁.1, [])) = P₂ at hok h₂
  rcases hrec : processDelta cfg P₂.1 v.message.toRaw
      with ⟨oE, e⟩ | ⟨s₃, o₃⟩ <;> rw [hrec] at hok
  · exact absurd hok (by simp)
  · obtain ⟨rfl, rfl⟩ : s' = s₃ ∧ o = P₁.2 ++ P₂.2 ++ o₃ := by
      cases hok
      exact ⟨rfl, rfl⟩
    have h₃ := inv_processDelta h₂ hrec
    rw [show l ++ (P₁.2 ++ P₂.2 ++ o₃) = ((l ++ P₁.2) ++ P₂.2) ++ o₃ from by
      simp [List.append_assoc]]
    exact h₃

theorem inv_processValues {cfg : StreamProcessorConfig} :
    ∀ (vs : List OllamaResponse) (s : PState) (l : List StreamPart)
      (s' : PState) (o : List StreamPart), DecodeInv cfg s l →
      processValues cfg s vs = .ok (s', o) → DecodeInv cfg s' (l ++ o) := by
  intro vs
  induction vs with
  | nil =>
    intro s l s' o h hok
    obtain ⟨rfl, rfl⟩ : s' = s ∧ o = [] := by
      simp only [processValues] at hok
      cases hok
      exact ⟨rfl, rfl⟩
    simpa using h
  | cons v rest ih =>
    intro s l s' o h hok
    simp only [processValues] at hok
    rcases hv : processResponseValue cfg s v with ⟨oE, e⟩ | ⟨s₁, o₁⟩ <;>
      rw [hv] at hok
    · exact absurd hok (by simp)
    · have hok₂ : (match processValues cfg s₁ rest with
          | .ok (s₂, o₂) => Except.ok (s₂, o₁ ++ o₂)
          | .error (oE, e) =>
            (Except.error (o₁ ++ oE, e) :
              Except (List StreamPart × InvalidResponseData)
                (PState × List StreamPart))) = .ok (s', o) := hok
      rcases hrest : processValues cfg s₁ rest with ⟨oE, e⟩ | ⟨s₂, o₂⟩ <;>
        rw [hrest] at hok₂
      · exact absurd hok₂ (by simp)
      · obtain ⟨rfl, rfl⟩ : s' = s₂ ∧ o = o₁ ++ o₂ := by
          cases hok₂
          exact ⟨rfl, rfl⟩
        have h₁ := inv_processResponseValue h hv
        have h₂ := ih s₁ (l ++ o₁) _ _ h₁ hrest
        rw [← List.append_assoc]
        exact h₂

theorem inv_processChunk {cfg : StreamProcessorConfig} {s : PState}
    {l : List StreamPart} (h : DecodeInv cfg s l) {c : Chunk}
    {s' : PState} {o : List StreamPart}
    (hok : processChunk cfg s c = .ok (s', o)) : DecodeInv cfg s' (l ++ o) := by
  unfold processChunk at hok
  by_cases hv : extractChunkValues cfg c = []
  · rw [if_pos hv] at hok
    rcases c with v | raw
    · obtain ⟨rfl, rfl⟩ : s' = s ∧
          o = (if cfg.includeRawChunks then [StreamPart.rawPart] else []) := by
        cases hok
        exact ⟨rfl, rfl⟩
      have hne : ∀ e ∈ (if cfg.includeRawChunks then [StreamPart.rawPart]
          else []), isNeutralPart e = true := by
        intro e he
        by_cases hr : cfg.includeRawChunks = true
        · rw [if_pos hr] at he
          simp at he
          subst he
          rfl
        · rw [if_neg hr] at he
          exact absurd he (List.not_mem_nil e)
      exact h.append_neutral hne
    · obtain ⟨rfl, rfl⟩ : s' = { s with finishReason := .plain "error" } ∧
          o = (if cfg.includeRawChunks then [StreamPart.rawPart] else []) ++
            [StreamPart.errorPart] := by
        cases hok
        exact ⟨rfl, rfl⟩
      have hne : ∀ e ∈ (if cfg.includeRawChunks then [StreamPart.rawPart]
          else []) ++ [StreamPart.errorPart], isNeutralPart e = true := by
        intro e he
        by_cases hr : cfg.includeRawChunks = true
        · rw [if_pos hr] at he
          simp at he
          rcases he with h1 | h1 <;> subst h1 <;> rfl
        · rw [if_neg hr] at he
          simp at he
          subst he
          rfl
      exact (h.retarget { s with finishReason := .plain "error" }
        rfl rfl rfl rfl).append_neutral hne
  · rw [if_neg hv] at hok
    rcases hvals : processValues cfg s (extractChunkValues cfg c)
      with ⟨oE, e⟩ | ⟨s₂, o₂⟩ <;> rw [hvals] at hok
    · exact absurd hok (by simp)
    · obtain ⟨rfl, rfl⟩ : s' = s₂ ∧
          o = (if cfg.includeRawChunks then [StreamPart.rawPart] else []) ++ o₂ := by
        cases hok
        exact ⟨rfl, rfl⟩
      have hne : ∀ e ∈ (if cfg.includeRawChunks then [StreamPart.rawPart]
          else []), isNeutralPart e = true := by
        intro e he
        by_cases hr : cfg.includeRawChunks = true
        · rw [if_pos hr] at he
          simp at he
          subst he
          rfl
        · rw [if_neg hr] at he
          exact absurd he (List.not_mem_nil e)
      have h₁ : DecodeInv cfg s
          (l ++ (if cfg.includeRawChunks then [StreamPart.rawPart] else [])) :=
        h.append_neutral hne
      have h₂ := inv_processValues (extractChunkValues cfg c) s _ _ _ h₁ hvals
      rw [← List.append_assoc]
      exact h₂

theorem inv_runChunks {cfg : StreamProcessorConfig} :
    ∀ (chunks : List Chunk) (s : PState) (l : List StreamPart)
      (s' : PState) (o : List StreamPart), DecodeInv cfg s l →
      runChunks cfg s chunks = .ok (s', o) → DecodeInv cfg s' (l ++ o) := by
  intro chunks
  induction chunks with
  | nil =>
    intro s l s' o h hok
    obtain ⟨rfl, rfl⟩ : s' = s ∧ o = [] := by
      simp only [runChunks] at hok
      cases hok
      exact ⟨rfl, rfl⟩
    simpa using h
  | cons c rest ih =>
    intro s l s' o h hok
    simp only [runChunks] at hok
    rcases hc : processChunk cfg s c with ⟨oE, e⟩ | ⟨s₁, o₁⟩ <;>
      rw [hc] at hok
    · exact absurd hok (by simp)
    · have hok₂ : (match runChunks cfg s₁ rest with
          | .ok (s₂, o₂) => Except.ok (s₂, o₁ ++ o₂)
          | .error (oE, e) =>
            (Except.error (o₁ ++ oE, e) :
              Except (List StreamPart × InvalidResponseData)
                (PState × List StreamPart))) = .ok (s', o) := hok
      rcases hrest : runChunks cfg s₁ rest with ⟨oE, e⟩ | ⟨s₂, o₂⟩ <;>
        rw [hrest] at hok₂
      · exact absurd hok₂ (by simp)
      · obtain ⟨rfl, rfl⟩ : s' = s₂ ∧ o = o₁ ++ o₂ := by
          cases hok₂
          exact ⟨rfl, rfl⟩
        have h₁ := inv_processChunk h hc
        have h₂ := ih s₁ (l ++ o₁) _ _ h₁ hrest
        rw [← List.append_assoc]
        exact h₂

/-! ## C1: channel invariant of a completed decode -/

/-- The decode invariant holds after the `start` callback: the fresh state
with only the `stream-start` event emitted. -/
theorem inv_initial (cfg : StreamProcessorConfig) :
    DecodeInv cfg initializeState [StreamPart.streamStart cfg.warnings] := by
  have hnil : DecodeInv cfg initializeState [] := by
    refine ⟨rfl, rfl, ?_, rfl, rfl, ?_, fun id => ⟨rfl, rfl⟩, ?_, ?_, ?_, rfl⟩
    · intro hcontra
      exact absurd hcontra (by decide)
    · intro hcontra
      exact absurd hcontra (by decide)
    · intro n d hn
      simp at hn
    · intro n d hn
      simp at hn
    · intro n id d hn
      simp at hn
  have hne : ∀ e ∈ [StreamPart.streamStart cfg.warnings],
      isNeutralPart e = true := by
    intro e he
    simp at he
    subst he
    rfl
  exact hnil.append_neutral hne

/-- `finalizeStream` emits only the synthesized channel ends and the final
`finish` event. -/
theorem finalizeStream_mem {cfg : StreamProcessorConfig} {s : PState}
    {e : StreamPart} (he : e ∈ finalizeStream cfg s) :
    e = StreamPart.textEnd cfg.textId ∨ e = StreamPart.reasoningEnd "0" ∨
      e = StreamPart.finish s.finishReason s.usage s.responseId := by
  unfold finalizeStream at he
  simp only [List.mem_append, List.mem_singleton] at he
  rcases he with (he | he) | he
  · split at he
    · simp at he
      subst he
      exact Or.inl rfl
    · exact absurd he (List.not_mem_nil e)
  · split at he
    · simp at he
      subst he
      exact Or.inr (Or.inl rfl)
    · exact absurd he (List.not_mem_nil e)
  · exact Or.inr (Or.inr he)

/-- The flush output carries no delta, no channel start, and no tool
event. -/
theorem finalize_no_deltas {cfg : StreamProcessorConfig} {s : PState} :
    ∀ e ∈ finalizeStream cfg s, isTextDeltaFor cfg.textId e = false ∧
      isReasDeltaFor "0" e = false ∧ isToolEvent e = false ∧
      isTextStartFor cfg.textId e = false ∧ isReasStartFor "0" e = false := by
  intro e he
  rcases finalizeStream_mem he with rfl | rfl | rfl <;>
    exact ⟨rfl, rfl, rfl, rfl, rfl⟩

/-- Number of `text-end` events synthesized by the flush. -/
theorem countIn_finalize_textEnd (cfg : StreamProcessorConfig) (s : PState) :
    countIn (isTextEndFor cfg.textId) (finalizeStream cfg s) =
      (if s.hasTextStarted && !s.textEnded then 1 else 0) := by
  unfold finalizeStream
  by_cases h1 : (s.hasTextStarted && !s.textEnded) = true <;>
    by_cases h2 : (s.hasReasoningStarted && !s.reasoningEnded) = true <;>
    simp [h1, h2, countIn, countIn_append, isTextEndFor]

/-- Number of `reasoning-end` events synthesized by the flush. -/
theorem countIn_finalize_reasEnd (cfg : StreamProcessorConfig) (s : PState) :
    countIn (isReasEndFor "0") (finalizeStream cfg s) =
      (if s.hasReasoningStarted && !s.reasoningEnded then 1 else 0) := by
  unfold finalizeStream
  by_cases h1 : (s.hasTextStarted && !s.textEnded) = true <;>
    by_cases h2 : (s.hasReasoningStarted && !s.reasoningEnded) = true <;>
    simp [h1, h2, countIn, countIn_append, isReasEndFor]

/-- C1 (amended): for every streaming decode of the stream processor that
completes without a thrown error, the number of start events per channel id
equals the number of end events for that id (open channels get their end
synthesized during flush), every text or reasoning delta occurs strictly
after its channel start, and every tool-input delta lies strictly between
the tool-input start and end of its id.  The claim's further requirement
that every text/reasoning delta occur strictly before the channel's end is
refuted by `processor_delta_after_end_counterexample`: `done` is handled
before the delta of the same fragment, so a text delta can follow the
`text-end`. -/
theorem channel_invariant_amended (cfg : StreamProcessorConfig)
    (chunks : List Chunk) (l : List StreamPart)
    (hok : runProcessor cfg chunks = Except.ok l) :
    countIn (isTextStartFor cfg.textId) l =
      countIn (isTextEndFor cfg.textId) l ∧
    countIn (isReasStartFor "0") l = countIn (isReasEndFor "0") l ∧
    (∀ id, countIn (isToolStartFor id) l = countIn (isToolEndFor id) l) ∧
    textDeltaAfterStart cfg.textId l ∧ reasDeltaAfterStart l ∧
    toolDeltaBetween l := by
  unfold runProcessor at hok
  rcases hrun : runChunks cfg initializeState chunks with ⟨oE, e⟩ | ⟨sF, out⟩ <;>
    rw [hrun] at hok
  · exact absurd hok (by simp)
  · obtain rfl : l = StreamPart.streamStart cfg.warnings ::
        (out ++ finalizeStream cfg sF) := by
      cases hok
      rfl
    have hinv := inv_runChunks chunks initializeState
      [StreamPart.streamStart cfg.warnings] _ _ (inv_initial cfg) hrun
    have hL : StreamPart.streamStart cfg.warnings ::
        (out ++ finalizeStream cfg sF) =
        ([StreamPart.streamStart cfg.warnings] ++ out) ++
          finalizeStream cfg sF := by
      simp
    rw [hL]
    refine ⟨?_, ?_, ?_, ?_, ?_, ?_⟩
    · rw [countIn_append (isTextStartFor cfg.textId)
          ([StreamPart.streamStart cfg.warnings] ++ out) (finalizeStream cfg sF),
        countIn_append (isTextEndFor cfg.textId)
          ([StreamPart.streamStart cfg.warnings] ++ out) (finalizeStream cfg sF),
        hinv.ts, hinv.te,
        countIn_eq_zero_of_all_false
          (fun e he => (finalize_no_deltas e he).2.2.2.1),
        countIn_finalize_textEnd]
      have htse := hinv.tse
      rcases h1 : sF.hasTextStarted with _ | _ <;>
        rcases h2 : sF.textEnded with _ | _
      · decide
      · exact absurd (htse h2) (by simp [h1])
      · decide
      · decide
    · rw [countIn_append (isReasStartFor "0")
          ([StreamPart.streamStart cfg.warnings] ++ out) (finalizeStream cfg sF),
        countIn_append (isReasEndFor "0")
          ([StreamPart.streamStart cfg.warnings] ++ out) (finalizeStream cfg sF),
        hinv.rs, hinv.re,
        countIn_eq_zero_of_all_false
          (fun e he => (finalize_no_deltas e he).2.2.2.2),
        countIn_finalize_reasEnd]
      have hrse := hinv.rse
      rcases h1 : sF.hasReasoningStarted with _ | _ <;>
        rcases h2 : sF.reasoningEnded with _ | _
      · decide
      · exact absurd (hrse h2) (by simp [h1])
      · decide
      · decide
    · intro id
      have htool := hinv.tool id
      have hz : ∀ e ∈ finalizeStream cfg sF, isToolStartFor id e = false ∧
          isToolEndFor id e = false := by
        intro e he
        rcases finalizeStream_mem he with rfl | rfl | rfl <;> exact ⟨rfl, rfl⟩
      rw [countIn_append (isToolStartFor id)
          ([StreamPart.streamStart cfg.warnings] ++ out) (finalizeStream cfg sF),
        countIn_append (isToolEndFor id)
          ([StreamPart.streamStart cfg.warnings] ++ out) (finalizeStream cfg sF),
        countIn_eq_zero_of_all_false (fun e he => (hz e he).1),
        countIn_eq_zero_of_all_false (fun e he => (hz e he).2)]
      simpa using htool.1
    · exact textDeltaAfterStart_append hinv.tOrd
        (Or.inr (textDeltaAfterStart_of_no_delta
          (fun e he => (finalize_no_deltas e he).1)))
    · exact reasDeltaAfterStart_append hinv.rOrd
        (Or.inr (reasDeltaAfterStart_of_no_delta
          (fun e he => (finalize_no_deltas e he).2.1)))
    · exact toolDeltaBetween_append hinv.dOrd
        (toolDeltaBetween_of_no_delta
          (fun e he => (finalize_no_deltas e he).2.2.1))

/-- Concrete processor configuration for the C1 counterexample. -/
def c1Cfg : StreamProcessorConfig :=
  { textId := "tid", genId := fun n => "g" ++ toString n }

/-- A text fragment followed by a `done` fragment whose `message.content`
is the (schema-required) empty string. -/
def c1Chunks : List Chunk :=
  [Chunk.success { message := { content := "a" } },
   Chunk.success
     { done := true
       done_reason := some "stop"
       eval_count := some 5
       prompt_eval_count := some 3 }]

/-- The full event sequence the processor emits for `c1Chunks`. -/
def c1Events : List StreamPart :=
  [StreamPart.streamStart [],
   StreamPart.responseMetadata (some "") (some ""),
   StreamPart.textStart "tid",
   StreamPart.textDelta "tid" "a",
   StreamPart.textEnd "tid",
   StreamPart.textDelta "tid" "",
   StreamPart.finish (FinishValue.mapped (mapOllamaFinishReason (some "stop")))
     { inputTokens := some 3
       outputTokens := some 5
       totalTokens := some 8 } none]

/-- C1 counterexample: `processResponseValue` handles `done` (closing the
text channel) before processing the same fragment's delta, so the final
fragment's `text-delta` is emitted after the `text-end` and no `text-end`
follows it — the claim's "every delta strictly before the id's end"
ordering is violated. -/
theorem processor_delta_after_end_counterexample :
    runProcessor c1Cfg c1Chunks = Except.ok c1Events ∧
    c1Events[4]? = some (StreamPart.textEnd "tid") ∧
    c1Events[5]? = some (StreamPart.textDelta "tid" "") ∧
    ¬ (∀ (n : Nat) (d : String),
        c1Events[n]? = some (StreamPart.textDelta "tid" d) →
        ∃ k, n < k ∧ c1Events[k]? = some (StreamPart.textEnd "tid")) := by
  refine ⟨rfl, rfl, rfl, ?_⟩
  intro hcl
  obtain ⟨k, hk, hke⟩ := hcl 5 "" rfl
  rcases Nat.lt_or_ge k 7 with h7 | h7
  · have hk6 : k = 6 := by omega
    subst hk6
    exact absurd hke (by decide)
  · rw [List.getElem?_eq_none
      (le_trans (show c1Events.length ≤ 7 by decide) h7)] at hke
    exact Option.noConfusion hke

/-- C1 witness: the amended channel invariant instantiated at the concrete
decode of `c1Chunks`. -/
theorem channel_invariant_witness :
    countIn (isTextStartFor "tid") c1Events =
      countIn (isTextEndFor "tid") c1Events ∧
    textDeltaAfterStart "tid" c1Events ∧ reasDeltaAfterStart c1Events := by
  have h := channel_invariant_amended c1Cfg c1Chunks c1Events rfl
  exact ⟨h.1, h.2.2.2.1, h.2.2.2.2.1⟩

/-! ## C2: exactly one finish, last, and the unknown default -/

/-- The flush emits exactly one `finish` event. -/
theorem countIn_finalize_finish (cfg : StreamProcessorConfig) (s : PState) :
    countIn isFinishPart (finalizeStream cfg s) = 1 := by
  unfold finalizeStream
  by_cases h1 : (s.hasTextStarted && !s.textEnded) = true <;>
    by_cases h2 : (s.hasReasoningStarted && !s.reasoningEnded) = true <;>
    simp [h1, h2, countIn, countIn_append, isFinishPart]

/-- The last element of a list ending in a singleton. -/
theorem getLast?_append_singleton {α : Type} (l : List α) (x : α) :
    (l ++ [x]).getLast? = some x := by
  induction l with
  | nil => rfl
  | cons a rest ih =>
    cases rest with
    | nil => rfl
    | cons b rest₂ =>
      rw [List.cons_append, List.cons_append, List.getLast?_cons_cons]
      exact ih

/-- The `finish` event closes the flush output. -/
theorem finalizeStream_last (cfg : StreamProcessorConfig) (s : PState)
    (pre : List StreamPart) :
    (pre ++ finalizeStream cfg s).getLast? =
      some (StreamPart.finish s.finishReason s.usage s.responseId) := by
  unfold finalizeStream
  rw [show pre ++
      ((if s.hasTextStarted && !s.textEnded then [StreamPart.textEnd cfg.textId]
        else []) ++
       (if s.hasReasoningStarted && !s.reasoningEnded then
          [StreamPart.reasoningEnd "0"] else []) ++
       [StreamPart.finish s.finishReason s.usage s.responseId]) =
      (pre ++
        ((if s.hasTextStarted && !s.textEnded then
            [StreamPart.textEnd cfg.textId] else []) ++
         (if s.hasReasoningStarted && !s.reasoningEnded then
            [StreamPart.reasoningEnd "0"] else []))) ++
       [StreamPart.finish s.finishReason s.usage s.responseId] from by
    simp [List.append_assoc]]
  exact getLast?_append_singleton _ _

/-- `processTextContent` never touches the finish reason, the usage, or the
response id. -/
theorem processTextContent_core (cfg : StreamProcessorConfig) (s : PState)
    (m : OllamaMessageRaw) :
    (processTextContent cfg s m).1.finishReason = s.finishReason ∧
    (processTextContent cfg s m).1.usage = s.usage ∧
    (processTextContent cfg s m).1.responseId = s.responseId := by
  rcases hc : m.content with _ | c
  · simp [processTextContent, hc]
  · simp only [processTextContent, hc]
    by_cases h : s.hasTextStarted = true
    · rw [if_pos h]
      exact ⟨rfl, rfl, rfl⟩
    · rw [if_neg h]
      exact ⟨rfl, rfl, rfl⟩

/-- `processThinking` never touches the finish reason, the usage, or the
response id. -/
theorem processThinking_core (s : PState) (m : OllamaMessageRaw) :
    (processThinking s m).1.finishReason = s.finishReason ∧
    (processThinking s m).1.usage = s.usage ∧
    (processThinking s m).1.responseId = s.responseId := by
  rcases ht : m.thinking with _ | t
  · simp [processThinking, ht]
  · simp only [processThinking, ht]
    by_cases he : t = ""
    · rw [if_pos he]
      exact ⟨rfl, rfl, rfl⟩
    · rw [if_neg he]
      by_cases hr : s.hasReasoningStarted = true
      · rw [if_pos hr]
        exact ⟨rfl, rfl, rfl⟩
      · rw [if_neg hr]
        exact ⟨rfl, rfl, rfl⟩

/-- The tool-call loop never touches the finish reason, the usage, or the
response id. -/
theorem processToolCalls_core (cfg : StreamProcessorConfig) :
    ∀ (tcs : List OllamaToolCallRaw) (s s' : PState) (o : List StreamPart),
      processToolCalls cfg s tcs = .ok (s', o) →
      s'.finishReason = s.finishReason ∧ s'.usage = s.usage ∧
        s'.responseId = s.responseId := by
  intro tcs
  induction tcs with
  | nil =>
    intro s s' o hok
    obtain ⟨rfl, rfl⟩ : s' = s ∧ o = [] := by
      simp only [processToolCalls] at hok
      cases hok
      exact ⟨rfl, rfl⟩
    exact ⟨rfl, rfl, rfl⟩
  | cons p rest ih =>
    intro s s' o hok
    rcases hnm : p.function.bind OllamaToolCallFunctionRaw.name with _ | nm
    · simp only [processToolCalls, hnm] at hok
      exact absurd hok (by simp)
    · rcases hargs : p.function.bind OllamaToolCallFunctionRaw.arguments
        with _ | args
      · simp only [processToolCalls, hnm, hargs] at hok
        exact ih s s' o hok
      · simp only [processToolCalls, hnm, hargs] at hok
        rcases hrec : processToolCalls cfg (emitToolCall cfg s nm args p.id).1 rest
          with ⟨oE, e⟩ | ⟨s₂, o₂⟩ <;> rw [hrec] at hok
        · exact absurd hok (by simp)
        · obtain ⟨rfl, rfl⟩ : s' = s₂ ∧
              o = (emitToolCall cfg s nm args p.id).2 ++ o₂ := by
            cases hok
            exact ⟨rfl, rfl⟩
          exact ih (emitToolCall cfg s nm args p.id).1 _ _ hrec

/-- `processDelta` never touches the finish reason, the usage, or the
response id. -/
theorem processDelta_core {cfg : StreamProcessorConfig} {s : PState}
    {m : OllamaMessageRaw} {s' : PState} {o : List StreamPart}
    (hok : processDelta cfg s m = .ok (s', o)) :
    s'.finishReason = s.finishReason ∧ s'.usage = s.usage ∧
      s'.responseId = s.responseId := by
  have heq : processDelta cfg s m =
      (match processToolCalls cfg
          (processThinking (processTextContent cfg s m).1 m).1
          (m.tool_calls.getD []) with
        | .ok (s₃, o₃) =>
          .ok (s₃, (processTextContent cfg s m).2 ++
            (processThinking (processTextContent cfg s m).1 m).2 ++ o₃)
        | .error (oE, e) =>
          .error ((processTextContent cfg s m).2 ++
            (processThinking (processTextContent cfg s m).1 m).2 ++ oE, e)) := rfl
  rw [heq] at hok
  rcases hrec : processToolCalls cfg
      (processThinking (processTextContent cfg s m).1 m).1
      (m.tool_calls.getD []) with ⟨oE, e⟩ | ⟨s₃, o₃⟩ <;> rw [hrec] at hok
  · exact absurd hok (by simp)
  · obtain ⟨rfl, rfl⟩ : s' = s₃ ∧
        o = (processTextContent cfg s m).2 ++
          (processThinking (processTextContent cfg s m).1 m).2 ++ o₃ := by
      cases hok
      exact ⟨rfl, rfl⟩
    obtain ⟨a1, a2, a3⟩ := processToolCalls_core cfg _ _ _ _ hrec
    obtain ⟨b1, b2, b3⟩ := processThinking_core (processTextContent cfg s m).1 m
    obtain ⟨c1, c2, c3⟩ := processTextContent_core cfg s m
    exact ⟨(a1.trans b1).trans c1, (a2.trans b2).trans c2,
      (a3.trans b3).trans c3⟩

/-- `processResponseValue` on a fragment with `done = false` never touches
the finish reason, the usage, or the response id. -/
theorem processResponseValue_core {cfg : StreamProcessorConfig} {s : PState}
    {v : OllamaResponse} (hdone : v.done = false) {s' : PState}
    {o : List StreamPart}
    (hok : processResponseValue cfg s v = .ok (s', o)) :
    s'.finishReason = s.finishReason ∧ s'.usage = s.usage ∧
      s'.responseId = s.responseId := by
  have heq : processResponseValue cfg s v =
      (match processDelta cfg
          (if v.done then handleDoneChunk cfg
            (if s.isFirstChunk then
              ({ s with isFirstChunk := false }, [getResponseMetadata v])
            else (s, [])).1 v
          else ((if s.isFirstChunk then
              ({ s with isFirstChunk := false }, [getResponseMetadata v])
            else (s, [])).1, [])).1 v.message.toRaw with
        | .ok (s₃, o₃) =>
          .ok (s₃, (if s.isFirstChunk then
              ({ s with isFirstChunk := false }, [getResponseMetadata v])
            else (s, [])).2 ++
            (if v.done then handleDoneChunk cfg
              (if s.isFirstChunk then
                ({ s with isFirstChunk := false }, [getResponseMetadata v])
              else (s, [])).1 v
            else ((if s.isFirstChunk then
                ({ s with isFirstChunk := false }, [getResponseMetadata v])
              else (s, [])).1, [])).2 ++ o₃)
        | .error (oE, e) =>
          .error ((if s.isFirstChunk then
              ({ s with isFirstChunk := false }, [getResponseMetadata v])
            else (s, [])).2 ++
            (if v.done then handleDoneChunk cfg
              (if s.isFirstChunk then
                ({ s with isFirstChunk := false }, [getResponseMetadata v])
              else (s, [])).1 v
            else ((if s.isFirstChunk then
                ({ s with isFirstChunk := false }, [getResponseMetadata v])
              else (s, [])).1, [])).2 ++ oE, e)) := rfl
  rw [heq] at hok
  have hP1c : (if s.isFirstChunk then
      ({ s with isFirstChunk := false }, [getResponseMetadata v])
    else (s, [])).1.finishReason = s.finishReason ∧
      (if s.isFirstChunk then
        ({ s with isFirstChunk := false }, [getResponseMetadata v])
      else (s, [])).1.usage = s.usage ∧
      (if s.isFirstChunk then
        ({ s with isFirstChunk := false }, [getResponseMetadata v])
      else (s, [])).1.responseId = s.responseId := by
    split
    · exact ⟨rfl, rfl, rfl⟩
    · exact ⟨rfl, rfl, rfl⟩
  generalize hP1 : (if s.isFirstChunk then
      ({ s with isFirstChunk := false }, [getResponseMetadata v])
    else (s, [])) = P₁ at hok hP1c
  have hP2eq : (if v.done then handleDoneChunk cfg P₁.1 v
      else (P₁.1, ([] : List StreamPart))) = (P₁.1, []) := by
    rw [if_neg (by simp [hdone])]
  generalize hP2 : (if v.done then handleDoneChunk cfg P₁.1 v
    else (P₁.1, [])) = P₂ at hok hP2eq
  rcases hrec : processDelta cfg P₂.1 v.message.toRaw
      with ⟨oE, e⟩ | ⟨s₃, o₃⟩ <;> rw [hrec] at hok
  · exact absurd hok (by simp)
  · obtain ⟨rfl, rfl⟩ : s' = s₃ ∧ o = P₁.2 ++ P₂.2 ++ o₃ := by
      cases hok
      exact ⟨rfl, rfl⟩
    obtain ⟨a1, a2, a3⟩ := processDelta_core hrec
    have hP2c : P₂.1.finishReason = P₁.1.finishReason ∧
        P₂.1.usage = P₁.1.usage ∧ P₂.1.responseId = P₁.1.responseId := by
      rw [hP2eq]
      exact ⟨rfl, rfl, rfl⟩
    exact ⟨(a1.trans hP2c.1).trans hP1c.1, (a2.trans hP2c.2.1).trans hP1c.2.1,
      (a3.trans hP2c.2.2).trans hP1c.2.2⟩

/-- `processValues` over fragments with `done = false` never touches the
finish reason, the usage, or the response id. -/
theorem processValues_core {cfg : StreamProcessorConfig} :
    ∀ (vs : List OllamaResponse) (s : PState) (s' : PState)
      (o : List StreamPart), (∀ v ∈ vs, v.done = false) →
      processValues cfg s vs = .ok (s', o) →
      s'.finishReason = s.finishReason ∧ s'.usage = s.usage ∧
        s'.responseId = s.responseId := by
  intro vs
  induction vs with
  | nil =>
    intro s s' o hd hok
    obtain ⟨rfl, rfl⟩ : s' = s ∧ o = [] := by
      simp only [processValues] at hok
      cases hok
      exact ⟨rfl, rfl⟩
    exact ⟨rfl, rfl, rfl⟩
  | cons v rest ih =>
    intro s s' o hd hok
    simp only [processValues] at hok
    rcases hv : processResponseValue cfg s v with ⟨oE, e⟩ | ⟨s₁, o₁⟩ <;>
      rw [hv] at hok
    · exact absurd hok (by simp)
    · have hok₂ : (match processValues cfg s₁ rest with
          | .ok (s₂, o₂) => Except.ok (s₂, o₁ ++ o₂)
          | .error (oE, e) =>
            (Except.error (o₁ ++ oE, e) :
              Except (List StreamPart × InvalidResponseData)
                (PState × List StreamPart))) = .ok (s', o) := hok
      rcases hrest : processValues cfg s₁ rest with ⟨oE, e⟩ | ⟨s₂, o₂⟩ <;>
        rw [hrest] at hok₂
      · exact absurd hok₂ (by simp)
      · obtain ⟨rfl, rfl⟩ : s' = s₂ ∧ o = o₁ ++ o₂ := by
          cases hok₂
          exact ⟨rfl, rfl⟩
        have h₁ := processResponseValue_core
          (hd v (List.mem_cons_self v rest)) hv
        have h₂ := ih s₁ _ _ (fun x hx => hd x (List.mem_cons_of_mem v hx))
          hrest
        exact ⟨h₂.1.trans h₁.1, h₂.2.1.trans h₁.2.1, h₂.2.2.trans h₁.2.2⟩

/-- `processChunk` on a chunk whose extraction succeeds and whose fragments
all have `done = false` never touches the finish reason, the usage, or the
response id. -/
theorem processChunk_core {cfg : StreamProcessorConfig} {s : PState}
    {c : Chunk} (hne : extractChunkValues cfg c ≠ [])
    (hd : ∀ v ∈ extractChunkValues cfg c, v.done = false) {s' : PState}
    {o : List StreamPart}
    (hok : processChunk cfg s c = .ok (s', o)) :
    s'.finishReason = s.finishReason ∧ s'.usage = s.usage ∧
      s'.responseId = s.responseId := by
  unfold processChunk at hok
  rw [if_neg hne] at hok
  rcases hvals : processValues cfg s (extractChunkValues cfg c)
    with ⟨oE, e⟩ | ⟨s₂, o₂⟩ <;> rw [hvals] at hok
  · exact absurd hok (by simp)
  · obtain ⟨rfl, rfl⟩ : s' = s₂ ∧
        o = (if cfg.includeRawChunks then [StreamPart.rawPart] else []) ++ o₂ := by
      cases hok
      exact ⟨rfl, rfl⟩
    exact processValues_core (extractChunkValues cfg c) s _ _ hd hvals

/-- `runChunks` over non-finishing chunks never touches the finish reason,
the usage, or the response id. -/
theorem runChunks_core (cfg : StreamProcessorConfig) :
    ∀ (chunks : List Chunk) (s s' : PState) (o : List StreamPart),
      (∀ c ∈ chunks, extractChunkValues cfg c ≠ [] ∧
        ∀ v ∈ extractChunkValues cfg c, v.done = false) →
      runChunks cfg s chunks = .ok (s', o) →
      s'.finishReason = s.finishReason ∧ s'.usage = s.usage ∧
        s'.responseId = s.responseId := by
  intro chunks
  induction chunks with
  | nil =>
    intro s s' o hns hok
    obtain ⟨rfl, rfl⟩ : s' = s ∧ o = [] := by
      simp only [runChunks] at hok
      cases hok
      exact ⟨rfl, rfl⟩
    exact ⟨rfl, rfl, rfl⟩
  | cons c rest ih =>
    intro s s' o hns hok
    simp only [runChunks] at hok
    rcases hc : processChunk cfg s c with ⟨oE, e⟩ | ⟨s₁, o₁⟩ <;>
      rw [hc] at hok
    · exact absurd hok (by simp)
    · have hok₂ : (match runChunks cfg s₁ rest with
          | .ok (s₂, o₂) => Except.ok (s₂, o₁ ++ o₂)
          | .error (oE, e) =>
            (Except.error (o₁ ++ oE, e) :
              Except (List StreamPart × InvalidResponseData)
                (PState × List StreamPart))) = .ok (s', o) := hok
      rcases hrest : runChunks cfg s₁ rest with ⟨oE, e⟩ | ⟨s₂, o₂⟩ <;>
        rw [hrest] at hok₂
      · exact absurd hok₂ (by simp)
      · obtain ⟨rfl, rfl⟩ : s' = s₂ ∧ o = o₁ ++ o₂ := by
          cases hok₂
          exact ⟨rfl, rfl⟩
        have hcs := hns c (List.mem_cons_self c rest)
        have h₁ := processChunk_core hcs.1 hcs.2 hc
        have h₂ := ih s₁ _ _ (fun x hx => hns x (List.mem_cons_of_mem c hx))
          hrest
        exact ⟨h₂.1.trans h₁.1, h₂.2.1.trans h₁.2.1, h₂.2.2.trans h₁.2.2⟩

/-- `finish` part test for the chat transform. -/
def isChatFinish : ChatPart → Bool
  | .finish _ _ _ => true
  | _ => false

/-- A chunk that never sets the finish reason: a fragment with
`done = false`, or a failed chunk whose line recovery completes without
throwing. -/
def chatNonSetting (cfg : ChatStreamConfig) : Chunk → Prop
  | .success v => v.done = false
  | .failure raw => (chatRecoverLines cfg (splitNlAll raw)).2 = true

/-- First-chunk metadata pair of the chat transform (`p₁` in the source). -/
def chatFirstPair (s : ChatState) (v : OllamaResponse) :
    ChatState × List ChatPart :=
  if s.isFirstChunk then
    ({ s with isFirstChunk := false }, [chatResponseMetadata v])
  else (s, [])

/-- State after the `done` capture of the chat transform (`s₂` in the
source). -/
def chatDoneState (s : ChatState) (v : OllamaResponse) : ChatState :=
  if v.done then
    { (chatFirstPair s v).1 with
        finishReason := .mapped (mapOllamaFinishReason v.done_reason)
        promptTokens := some (v.prompt_eval_count.getD 0)
        completionTokens := v.eval_count }
  else (chatFirstPair s v).1

/-- Text part of a successful chunk (`content` is schema-required, so the
chat transform always emits one text delta). -/
def chatTextOut (v : OllamaResponse) : List ChatPart :=
  [ChatPart.textDelta (some v.message.content)]

/-- Reasoning part of a successful chunk (truthiness guard). -/
def chatThinkOut (v : OllamaResponse) : List ChatPart :=
  match v.message.thinking with
  | some t => if t = "" then [] else [ChatPart.reasoning (some t)]
  | none => []

/-- The successful-chunk branch of the chat transform, with the let-bound
intermediates named. -/
theorem chatTransformChunk_success_eq (cfg : ChatStreamConfig) (s : ChatState)
    (v : OllamaResponse) :
    chatTransformChunk cfg s (Chunk.success v) =
      (match chatProcessToolCalls cfg (chatDoneState s v).nextId
          (v.message.toRaw.tool_calls.getD []) with
        | .ok (n', o₅) => .ok ({ chatDoneState s v with nextId := n' },
            (chatFirstPair s v).2 ++ chatTextOut v ++ chatThinkOut v ++ o₅)
        | .error (oE, e) =>
            .error ((chatFirstPair s v).2 ++ chatTextOut v ++
              chatThinkOut v ++ oE, e)) := rfl

/-- The chat tool-call loop emits no `finish` part. -/
theorem chatProcessToolCalls_no_finish (cfg : ChatStreamConfig) :
    ∀ (tcs : List OllamaToolCallRaw) (n n' : Nat) (o : List ChatPart),
      chatProcessToolCalls cfg n tcs = .ok (n', o) →
      ∀ e ∈ o, isChatFinish e = false := by
  intro tcs
  induction tcs with
  | nil =>
    intro n n' o hok
    obtain ⟨rfl, rfl⟩ : n' = n ∧ o = [] := by
      simp only [chatProcessToolCalls] at hok
      cases hok
      exact ⟨rfl, rfl⟩
    intro e he
    exact absurd he (List.not_mem_nil e)
  | cons tc rest ih =>
    intro n n' o hok
    rcases hnm : tc.function.bind OllamaToolCallFunctionRaw.name with _ | nm
    · simp only [chatProcessToolCalls, hnm] at hok
      exact absurd hok (by simp)
    · rcases hargs : tc.function.bind OllamaToolCallFunctionRaw.arguments
        with _ | args
      · simp only [chatProcessToolCalls, hnm, hargs] at hok
        exact ih n n' o hok
      · simp only [chatProcessToolCalls, hnm, hargs] at hok
        by_cases hlen : args.length > 0
        · rw [if_pos hlen] at hok
          rcases hrec : chatProcessToolCalls cfg (n + 1) rest
            with ⟨oE, e⟩ | ⟨n₂, o₂⟩ <;> rw [hrec] at hok
          · exact absurd hok (by simp)
          · obtain ⟨rfl, rfl⟩ : n' = n₂ ∧
                o = [ChatPart.toolCallDelta (cfg.genId n) nm
                    (stringifyArgs args),
                  ChatPart.toolCall (cfg.genId n) nm
                    (stringifyArgs args)] ++ o₂ := by
              cases hok
              exact ⟨rfl, rfl⟩
            intro e he
            have he₂ : e ∈ ChatPart.toolCallDelta (cfg.genId n) nm
                (stringifyArgs args) ::
                ChatPart.toolCall (cfg.genId n) nm (stringifyArgs args) ::
                o₂ := he
            simp only [List.mem_cons] at he₂
            rcases he₂ with rfl | rfl | he₂
            · rfl
            · rfl
            · exact ih _ _ _ hrec e he₂
        · rw [if_neg hlen] at hok
          exact ih n n' o hok

/-- The recovery loop emits no `finish` part. -/
theorem chatRecoverLines_no_finish (cfg : ChatStreamConfig) :
    ∀ (lines : List (List Char)), ∀ e ∈ (chatRecoverLines cfg lines).1,
      isChatFinish e = false := by
  intro lines
  induction lines with
  | nil =>
    intro e he
    exact absurd he (List.not_mem_nil e)
  | cons line rest ih =>
    intro e he
    simp only [chatRecoverLines] at he
    by_cases hb : jsTrim line = []
    · rw [if_pos hb] at he
      exact ih e he
    · rw [if_neg hb] at he
      rcases hl : cfg.lineEval line with _ | ⟨c, t⟩ <;> rw [hl] at he
      · exact absurd he (List.not_mem_nil e)
      · have he₂ : e ∈ ChatPart.textDelta c :: ChatPart.reasoning t ::
            (chatRecoverLines cfg rest).1 := he
        simp only [List.mem_cons] at he₂
        rcases he₂ with rfl | rfl | he₂
        · rfl
        · rfl
        · exact ih e he₂

/-- One chat transform invocation emits no `finish` part. -/
theorem chatTransformChunk_no_finish (cfg : ChatStreamConfig) (s : ChatState)
    (c : Chunk) {s' : ChatState} {o : List ChatPart}
    (hok : chatTransformChunk cfg s c = .ok (s', o)) :
    ∀ e ∈ o, isChatFinish e = false := by
  rcases c with v | raw
  · rw [chatTransformChunk_success_eq] at hok
    rcases hrec : chatProcessToolCalls cfg (chatDoneState s v).nextId
        (v.message.toRaw.tool_calls.getD []) with ⟨oE, e⟩ | ⟨n', o₅⟩ <;>
      rw [hrec] at hok
    · exact absurd hok (by simp)
    · obtain ⟨rfl, rfl⟩ : s' = { chatDoneState s v with nextId := n' } ∧
          o = (chatFirstPair s v).2 ++ chatTextOut v ++ chatThinkOut v ++
            o₅ := by
        cases hok
        exact ⟨rfl, rfl⟩
      intro e he
      simp only [List.mem_append] at he
      rcases he with ((he | he) | he) | he
      · unfold chatFirstPair at he
        split at he
        · simp at he
          subst he
          rfl
        · exact absurd he (List.not_mem_nil e)
      · simp only [chatTextOut, List.mem_singleton] at he
        subst he
        rfl
      · unfold chatThinkOut at he
        rcases ht : v.message.thinking with _ | t <;> rw [ht] at he
        · exact absurd he (List.not_mem_nil e)
        · have he₂ : e ∈ (if t = "" then []
              else [ChatPart.reasoning (some t)]) := he
          split at he₂
          · exact absurd he₂ (List.not_mem_nil e)
          · simp at he₂
            subst he₂
            rfl
      · exact chatProcessToolCalls_no_finish cfg _ _ _ _ hrec e he
  · simp only [chatTransformChunk] at hok
    by_cases hr : (chatRecoverLines cfg (splitNlAll raw)).2 = true
    · rw [if_pos hr] at hok
      obtain ⟨rfl, rfl⟩ : s' = s ∧
          o = (chatRecoverLines cfg (splitNlAll raw)).1 := by
        cases hok
        exact ⟨rfl, rfl⟩
      exact fun e he => chatRecoverLines_no_finish cfg _ e he
    · rw [if_neg hr] at hok
      obtain ⟨rfl, rfl⟩ : s' = { s with finishReason := .plain "error" } ∧
          o = (chatRecoverLines cfg (splitNlAll raw)).1 ++
            [ChatPart.errorPart] := by
        cases hok
        exact ⟨rfl, rfl⟩
      intro e he
      simp only [List.mem_append, List.mem_singleton] at he
      rcases he with he | rfl
      · exact chatRecoverLines_no_finish cfg _ e he
      · rfl

/-- The chat transform fold emits no `finish` part. -/
theorem chatRunChunks_no_finish (cfg : ChatStreamConfig) :
    ∀ (chunks : List Chunk) (s s' : ChatState) (o : List ChatPart),
      chatRunChunks cfg s chunks = .ok (s', o) →
      ∀ e ∈ o, isChatFinish e = false := by
  intro chunks
  induction chunks with
  | nil =>
    intro s s' o hok
    obtain ⟨rfl, rfl⟩ : s' = s ∧ o = [] := by
      simp only [chatRunChunks] at hok
      cases hok
      exact ⟨rfl, rfl⟩
    intro e he
    exact absurd he (List.not_mem_nil e)
  | cons c rest ih =>
    intro s s' o hok
    simp only [chatRunChunks] at hok
    rcases hc : chatTransformChunk cfg s c with ⟨oE, e⟩ | ⟨s₁, o₁⟩ <;>
      rw [hc] at hok
    · exact absurd hok (by simp)
    · have hok₂ : (match chatRunChunks cfg s₁ rest with
          | .ok (s₂, o₂) => Except.ok (s₂, o₁ ++ o₂)
          | .error (oE, e) =>
            (Except.error (o₁ ++ oE, e) :
              Except (List ChatPart × InvalidResponseData)
                (ChatState × List ChatPart))) = .ok (s', o) := hok
      rcases hrest : chatRunChunks cfg s₁ rest with ⟨oE, e⟩ | ⟨s₂, o₂⟩ <;>
        rw [hrest] at hok₂
      · exact absurd hok₂ (by simp)
      · obtain ⟨rfl, rfl⟩ : s' = s₂ ∧ o = o₁ ++ o₂ := by
          cases hok₂
          exact ⟨rfl, rfl⟩
        intro e he
        rcases List.mem_append.mp he with h1 | h1
        · exact chatTransformChunk_no_finish cfg s c hc e h1
        · exact ih s₁ _ _ hrest e h1

/-- One chat transform invocation on a non-setting chunk preserves the
finish reason and the usage counts. -/
theorem chatTransformChunk_core (cfg : ChatStreamConfig) (s : ChatState)
    (c : Chunk) (hns : chatNonSetting cfg c) {s' : ChatState}
    {o : List ChatPart} (hok : chatTransformChunk cfg s c = .ok (s', o)) :
    s'.finishReason = s.finishReason ∧ s'.promptTokens = s.promptTokens ∧
      s'.completionTokens = s.completionTokens := by
  rcases c with v | raw
  · have hdone : v.done = false := hns
    rw [chatTransformChunk_success_eq] at hok
    rcases hrec : chatProcessToolCalls cfg (chatDoneState s v).nextId
        (v.message.toRaw.tool_calls.getD []) with ⟨oE, e⟩ | ⟨n', o₅⟩ <;>
      rw [hrec] at hok
    · exact absurd hok (by simp)
    · obtain ⟨rfl, rfl⟩ : s' = { chatDoneState s v with nextId := n' } ∧
          o = (chatFirstPair s v).2 ++ chatTextOut v ++ chatThinkOut v ++
            o₅ := by
        cases hok
        exact ⟨rfl, rfl⟩
      have hds : chatDoneState s v = (chatFirstPair s v).1 := by
        unfold chatDoneState
        rw [if_neg (by simp [hdone])]
      have hfp : (chatFirstPair s v).1.finishReason = s.finishReason ∧
          (chatFirstPair s v).1.promptTokens = s.promptTokens ∧
          (chatFirstPair s v).1.completionTokens = s.completionTokens := by
        unfold chatFirstPair
        by_cases hf : s.isFirstChunk = true
        · rw [if_pos hf]
          exact ⟨rfl, rfl, rfl⟩
        · rw [if_neg hf]
          exact ⟨rfl, rfl, rfl⟩
      refine ⟨?_, ?_, ?_⟩
      · show (chatDoneState s v).finishReason = s.finishReason
        rw [hds]
        exact hfp.1
      · show (chatDoneState s v).promptTokens = s.promptTokens
        rw [hds]
        exact hfp.2.1
      · show (chatDoneState s v).completionTokens = s.completionTokens
        rw [hds]
        exact hfp.2.2
  · have hr : (chatRecoverLines cfg (splitNlAll raw)).2 = true := hns
    simp only [chatTransformChunk] at hok
    rw [if_pos hr] at hok
    obtain ⟨rfl, rfl⟩ : s' = s ∧
        o = (chatRecoverLines cfg (splitNlAll raw)).1 := by
      cases hok
      exact ⟨rfl, rfl⟩
    exact ⟨rfl, rfl, rfl⟩

/-- The chat transform fold over non-setting chunks preserves the finish
reason and the usage counts. -/
theorem chatRunChunks_core (cfg : ChatStreamConfig) :
    ∀ (chunks : List Chunk) (s s' : ChatState) (o : List ChatPart),
      (∀ c ∈ chunks, chatNonSetting cfg c) →
      chatRunChunks cfg s chunks = .ok (s', o) →
      s'.finishReason = s.finishReason ∧ s'.promptTokens = s.promptTokens ∧
        s'.completionTokens = s.completionTokens := by
  intro chunks
  induction chunks with
  | nil =>
    intro s s' o hns hok
    obtain ⟨rfl, rfl⟩ : s' = s ∧ o = [] := by
      simp only [chatRunChunks] at hok
      cases hok
      exact ⟨rfl, rfl⟩
    exact ⟨rfl, rfl, rfl⟩
  | cons c rest ih =>
    intro s s' o hns hok
    simp only [chatRunChunks] at hok
    rcases hc : chatTransformChunk cfg s c with ⟨oE, e⟩ | ⟨s₁, o₁⟩ <;>
      rw [hc] at hok
    · exact absurd hok (by simp)
    · have hok₂ : (match chatRunChunks cfg s₁ rest with
          | .ok (s₂, o₂) => Except.ok (s₂, o₁ ++ o₂)
          | .error (oE, e) =>
            (Except.error (o₁ ++ oE, e) :
              Except (List ChatPart × InvalidResponseData)
                (ChatState × List ChatPart))) = .ok (s', o) := hok
      rcases hrest : chatRunChunks cfg s₁ rest with ⟨oE, e⟩ | ⟨s₂, o₂⟩ <;>
        rw [hrest] at hok₂
      · exact absurd hok₂ (by simp)
      · obtain ⟨rfl, rfl⟩ : s' = s₂ ∧ o = o₁ ++ o₂ := by
          cases hok₂
          exact ⟨rfl, rfl⟩
        have h₁ := chatTransformChunk_core cfg s c
          (hns c (List.mem_cons_self c rest)) hc
        have h₂ := ih s₁ _ _ (fun x hx => hns x (List.mem_cons_of_mem c hx))
          hrest
        exact ⟨h₂.1.trans h₁.1, h₂.2.1.trans h₁.2.1, h₂.2.2.trans h₁.2.2⟩

/-- C2 (amended): every streaming decode that completes emits exactly one
`finish` event and it is the last event of the sequence, for both the
stream processor transform and the chat model `doStream` transform; the
finish reason defaults to "unknown" only when no `done` fragment and no
unrecoverable-error chunk ever set it (the claim's unconditional
no-`done`-fragment clause is refuted by `finish_unknown_counterexample`:
an unrecoverable chunk sets the reason to "error" without any `done`
fragment). -/
theorem exactly_one_finish_amended :
    (∀ (cfg : StreamProcessorConfig) (chunks : List Chunk)
        (l : List StreamPart), runProcessor cfg chunks = Except.ok l →
      countIn isFinishPart l = 1 ∧
      (∃ fr u rid, l.getLast? = some (StreamPart.finish fr u rid)) ∧
      ((∀ c ∈ chunks, extractChunkValues cfg c ≠ [] ∧
          ∀ v ∈ extractChunkValues cfg c, v.done = false) →
        l.getLast? =
          some (StreamPart.finish (FinishValue.plain "unknown") {} none))) ∧
    (∀ (cfg : ChatStreamConfig) (chunks : List Chunk) (l : List ChatPart),
      runChatStream cfg chunks = Except.ok l →
      countIn isChatFinish l = 1 ∧
      (∃ fr p q, l.getLast? = some (ChatPart.finish fr p q)) ∧
      ((∀ c ∈ chunks, chatNonSetting cfg c) →
        l.getLast? =
          some (ChatPart.finish (FinishValue.plain "unknown") none none))) := by
  constructor
  · intro cfg chunks l hok
    unfold runProcessor at hok
    rcases hrun : runChunks cfg initializeState chunks
      with ⟨oE, e⟩ | ⟨sF, out⟩ <;> rw [hrun] at hok
    · exact absurd hok (by simp)
    · obtain rfl : l = StreamPart.streamStart cfg.warnings ::
          (out ++ finalizeStream cfg sF) := by
        cases hok
        rfl
      have hinv := inv_runChunks chunks initializeState
        [StreamPart.streamStart cfg.warnings] _ _ (inv_initial cfg) hrun
      have hlast : (StreamPart.streamStart cfg.warnings ::
          (out ++ finalizeStream cfg sF)).getLast? =
          some (StreamPart.finish sF.finishReason sF.usage sF.responseId) := by
        rw [show StreamPart.streamStart cfg.warnings ::
            (out ++ finalizeStream cfg sF) =
            (StreamPart.streamStart cfg.warnings :: out) ++
              finalizeStream cfg sF from by simp]
        exact finalizeStream_last cfg sF _
      refine ⟨?_, ⟨_, _, _, hlast⟩, ?_⟩
      · rw [show StreamPart.streamStart cfg.warnings ::
            (out ++ finalizeStream cfg sF) =
            ([StreamPart.streamStart cfg.warnings] ++ out) ++
              finalizeStream cfg sF from by simp,
          countIn_append isFinishPart
            ([StreamPart.streamStart cfg.warnings] ++ out)
            (finalizeStream cfg sF),
          hinv.fin, countIn_finalize_finish]
      · intro hns
        have hcore := runChunks_core cfg chunks initializeState sF out hns
          hrun
        rw [hlast, hcore.1, hcore.2.1, hcore.2.2]
        rfl
  · intro cfg chunks l hok
    unfold runChatStream at hok
    rcases hrun : chatRunChunks cfg {} chunks
      with ⟨oE, e⟩ | ⟨sF, out⟩ <;> rw [hrun] at hok
    · exact absurd hok (by simp)
    · obtain rfl : l = out ++ [ChatPart.finish sF.finishReason
          sF.promptTokens sF.completionTokens] := by
        cases hok
        rfl
      have hnf := chatRunChunks_no_finish cfg chunks {} sF out hrun
      refine ⟨?_, ⟨_, _, _, getLast?_append_singleton out _⟩, ?_⟩
      · rw [countIn_append isChatFinish out
            [ChatPart.finish sF.finishReason sF.promptTokens
              sF.completionTokens],
          countIn_eq_zero_of_all_false hnf]
        rfl
      · intro hns
        have hcore := chatRunChunks_core cfg chunks {} sF out hns hrun
        rw [getLast?_append_singleton out _, hcore.1, hcore.2.1, hcore.2.2]

/-- Processor configuration for the C2 counterexample and witness. -/
def c2Cfg : StreamProcessorConfig :=
  { textId := "t", genId := fun n => toString n }

/-- C2 counterexample: a failed chunk whose line recovery yields no value
sets the finish reason to "error" although no fragment with `done = true`
(indeed no fragment at all) was ever processed, so the flush emits a
finish reason different from the claimed "unknown" default. -/
theorem finish_unknown_counterexample :
    runProcessor c2Cfg [Chunk.failure ['x']] = Except.ok
      [StreamPart.streamStart [], StreamPart.errorPart,
       StreamPart.finish (FinishValue.plain "error") {} none] ∧
    (∀ c ∈ [Chunk.failure ['x']], ∀ v ∈ extractChunkValues c2Cfg c,
      v.done = false) ∧
    FinishValue.plain "error" ≠ FinishValue.plain "unknown" := by
  refine ⟨rfl, ?_, by decide⟩
  intro c hc v hv
  simp only [List.mem_singleton] at hc
  subst hc
  have hnil : extractChunkValues c2Cfg (Chunk.failure ['x']) = [] := rfl
  rw [hnil] at hv
  exact absurd hv (List.not_mem_nil v)

/-- Concrete non-setting chunk list for the C2 witness. -/
def c2wChunks : List Chunk :=
  [Chunk.success { message := { content := "hi" } }]

/-- Chat configuration for the C2 witness. -/
def c2ChatCfg : ChatStreamConfig :=
  { genId := fun n => toString n }

/-- C2 witness: the amended theorem instantiated on a one-fragment decode
with no `done` fragment, for both transforms. -/
theorem exactly_one_finish_witness :
    (∃ l, runProcessor c2Cfg c2wChunks = Except.ok l ∧
      countIn isFinishPart l = 1 ∧
      l.getLast? =
        some (StreamPart.finish (FinishValue.plain "unknown") {} none)) ∧
    (∃ l, runChatStream c2ChatCfg c2wChunks = Except.ok l ∧
      countIn isChatFinish l = 1 ∧
      l.getLast? =
        some (ChatPart.finish (FinishValue.plain "unknown") none none)) := by
  have h := exactly_one_finish_amended
  refine ⟨⟨_, rfl, ?_, ?_⟩, ⟨_, rfl, ?_, ?_⟩⟩
  · exact (h.1 c2Cfg c2wChunks _ rfl).1
  · exact (h.1 c2Cfg c2wChunks _ rfl).2.2 (by decide)
  · exact (h.2 c2ChatCfg c2wChunks _ rfl).1
  · exact (h.2 c2ChatCfg c2wChunks _ rfl).2.2 (by
      intro c hc
      simp only [c2wChunks, List.mem_singleton] at hc
      subst hc
      rfl)

end OllamaSpec
